import Mathlib

/-!
Verification of the wireless-transmission-emulation repository.

The Python sources are shallowly embedded: byte strings become `List Nat`
(each entry a byte value), machine integers become `Nat` with explicit
bounds, fallible code returns `Option` or `Except`, and real-valued DSP
code is embedded over `ℝ`.  Definitions follow the source files named in
each doc comment.
-/

namespace Simurf

/-! ## Byte-string utilities

Big-endian encodings used by `struct.pack("!I4s4sQHI", ...)` in
`Matlab/shared/packet_format.py`. -/

/-- Big-endian encoding of `n` into `w` bytes (most significant first),
mirroring Python `struct.pack` for the widths 2, 4 and 8. -/
def toBytesBE : Nat → Nat → List Nat
  | 0, _ => []
  | w + 1, n => (n / 256 ^ w % 256) :: toBytesBE w (n % 256 ^ w)

/-- Big-endian decoding of a byte list, mirroring `struct.unpack`. -/
def fromBytesBE (bs : List Nat) : Nat :=
  bs.foldl (fun a b => a * 256 + b) 0

theorem toBytesBE_length (w n : Nat) : (toBytesBE w n).length = w := by
  induction w generalizing n with
  | zero => rfl
  | succ w ih => simp [toBytesBE, ih]

theorem foldl_base_shift (l : List Nat) : ∀ a : Nat,
    l.foldl (fun a b => a * 256 + b) a = l.foldl (fun a b => a * 256 + b) 0 + a * 256 ^ l.length := by
  induction l with
  | nil => intro a; simp
  | cons c cs ih =>
    intro a
    simp only [List.foldl_cons, List.length_cons, Nat.zero_mul, Nat.zero_add]
    rw [ih (a * 256 + c), ih c]
    ring

theorem fromBytesBE_cons (b : Nat) (bs : List Nat) :
    fromBytesBE (b :: bs) = fromBytesBE bs + b * 256 ^ bs.length := by
  simp only [fromBytesBE, List.foldl_cons, Nat.zero_mul, Nat.zero_add]
  exact foldl_base_shift bs b

theorem fromBytesBE_toBytesBE (w n : Nat) (h : n < 256 ^ w) :
    fromBytesBE (toBytesBE w n) = n := by
  induction w generalizing n with
  | zero =>
    simp [toBytesBE, fromBytesBE]
    omega
  | succ w ih =>
    have hlt : n % 256 ^ w < 256 ^ w := Nat.mod_lt _ (Nat.pos_pow_of_pos w (by norm_num))
    simp only [toBytesBE, fromBytesBE_cons, ih (n % 256 ^ w) hlt, toBytesBE_length]
    have hdiv : n / 256 ^ w % 256 = n / 256 ^ w := by
      apply Nat.mod_eq_of_lt
      apply Nat.div_lt_of_lt_mul
      calc n < 256 ^ (w + 1) := h
        _ = 256 ^ w * 256 := by ring
    rw [hdiv]
    rw [Nat.add_comm, Nat.mul_comm]
    exact Nat.div_add_mod n (256 ^ w)

theorem toBytesBE_lt (w n : Nat) : ∀ b ∈ toBytesBE w n, b < 256 := by
  induction w generalizing n with
  | zero => intro b hb; simp [toBytesBE] at hb
  | succ w ih =>
    intro b hb
    simp only [toBytesBE, List.mem_cons] at hb
    rcases hb with h | h
    · subst h; exact Nat.mod_lt _ (by norm_num)
    · exact ih _ b h

/-- First `n` elements of `l ++ r` where `n` is the length of `l`. -/
theorem take_len_append {α : Type} (l r : List α) : (l ++ r).take l.length = l := by
  simp

/-- Dropping the length of `l` from `l ++ r` leaves `r`. -/
theorem drop_len_append {α : Type} (l r : List α) : (l ++ r).drop l.length = r := by
  simp

/-! ## CRC32

`zlib.crc32` is the reflected IEEE 802.3 CRC-32: initial value
`0xFFFFFFFF`, polynomial `0xEDB88320`, final XOR `0xFFFFFFFF`.  Embedded
bit-serially (table-free), as used by `packet_format.py`. -/

/-- One bit step of the reflected CRC-32. -/
def crc32Step (c : Nat) : Nat :=
  if c % 2 = 1 then (c / 2) ^^^ 0xEDB88320 else c / 2

/-- Process one byte (eight bit steps) of the CRC-32. -/
def crc32Byte (c b : Nat) : Nat :=
  crc32Step (crc32Step (crc32Step (crc32Step
    (crc32Step (crc32Step (crc32Step (crc32Step (c ^^^ b))))))))

/-- CRC32 of a byte string, mirroring `zlib.crc32(data) & 0xFFFFFFFF`. -/
def crc32 (data : List Nat) : Nat :=
  (data.foldl crc32Byte 0xFFFFFFFF) ^^^ 0xFFFFFFFF

theorem crc32Step_lt (c : Nat) (h : c < 2 ^ 32) : crc32Step c < 2 ^ 32 := by
  unfold crc32Step
  split
  · exact Nat.xor_lt_two_pow (by omega) (by norm_num)
  · omega

theorem crc32Byte_lt (c b : Nat) (hc : c < 2 ^ 32) (hb : b < 256) :
    crc32Byte c b < 2 ^ 32 := by
  unfold crc32Byte
  have h0 : c ^^^ b < 2 ^ 32 := Nat.xor_lt_two_pow hc (by omega)
  exact crc32Step_lt _ (crc32Step_lt _ (crc32Step_lt _ (crc32Step_lt _
    (crc32Step_lt _ (crc32Step_lt _ (crc32Step_lt _ (crc32Step_lt _ h0)))))))

theorem crc32_foldl_lt (data : List Nat) (hd : ∀ b ∈ data, b < 256) :
    data.foldl crc32Byte 0xFFFFFFFF < 2 ^ 32 := by
  suffices h : ∀ (l : List Nat) (a : Nat), a < 2 ^ 32 → (∀ b ∈ l, b < 256) →
      l.foldl crc32Byte a < 2 ^ 32 by
    exact h data 0xFFFFFFFF (by norm_num) hd
  intro l
  induction l with
  | nil => intro a ha _; simpa using ha
  | cons c cs ih =>
    intro a ha hl
    simp only [List.foldl_cons]
    exact ih _ (crc32Byte_lt a c ha (hl c (by simp))) (fun b hb => hl b (by simp [hb]))

theorem crc32_lt (data : List Nat) (hd : ∀ b ∈ data, b < 256) : crc32 data < 2 ^ 32 :=
  Nat.xor_lt_two_pow (crc32_foldl_lt data hd) (by norm_num)

/-! ## Packet codec (`Matlab/shared/packet_format.py`)

Header format `!I4s4sQHI`: `seq` u32, `src_ip` four octets, `dst_ip` four
octets, `timestamp_ns` u64, `length` u16, `crc32` u32, total 26 bytes,
followed by `length` payload bytes.  IPv4 addresses appear in the source
as dotted-quad strings converted with `inet_aton`/`inet_ntoa`; a valid
dotted-quad address is in canonical bijection with its four octets, so
addresses are embedded as four-octet byte lists. -/

def HEADER_SIZE : Nat := 26

def MAX_PAYLOAD_SIZE : Nat := 65507

/-- Structured packet fields returned by `unpack`. -/
structure Frame where
  seq : Nat
  src_ip : List Nat
  dst_ip : List Nat
  timestamp_ns : Nat
  payload : List Nat
  deriving Repr, DecidableEq

/-- Distinct failure kinds of `unpack` (the source raises `ValueError`
with a distinct message for each case). -/
inductive UnpackError where
  | tooShort
  | badLength
  | crcMismatch
  deriving Repr, DecidableEq

/-- Validity of an embedded IPv4 address: four octets.  This mirrors
`socket.inet_aton` accepting a canonical dotted-quad string. -/
def validIp (ip : List Nat) : Prop := ip.length = 4 ∧ ∀ b ∈ ip, b < 256

instance (ip : List Nat) : Decidable (validIp ip) := by
  unfold validIp; infer_instance

/-- Serialization with CRC32, mirroring `pack` in `packet_format.py`.
Returns `none` where the source raises (`seq` out of range, payload too
large, invalid address, timestamp not a u64). -/
def pack (seq : Nat) (src_ip dst_ip : List Nat) (timestamp_ns : Nat)
    (payload : List Nat) : Option (List Nat) :=
  if seq < 2 ^ 32 ∧ payload.length ≤ MAX_PAYLOAD_SIZE ∧
      validIp src_ip ∧ validIp dst_ip ∧ timestamp_ns < 2 ^ 64 then
    some (toBytesBE 4 seq ++ src_ip ++ dst_ip ++ toBytesBE 8 timestamp_ns ++
      toBytesBE 2 payload.length ++ toBytesBE 4 (crc32 payload) ++ payload)
  else
    none

/-- Declared payload length: bytes 20–21 of the header, big-endian. -/
def declaredLength (data : List Nat) : Nat :=
  fromBytesBE ((data.drop 20).take 2)

/-- Deserialization with checksum validation, mirroring `unpack` in
`packet_format.py`.  The error cases are checked in source order:
too-short buffer, then declared length beyond the buffer, then CRC
mismatch. -/
def unpack (data : List Nat) : Except UnpackError Frame :=
  if data.length < HEADER_SIZE then
    .error .tooShort
  else if HEADER_SIZE + fromBytesBE ((data.drop 20).take 2) > data.length then
    .error .badLength
  else if crc32 ((data.drop HEADER_SIZE).take (fromBytesBE ((data.drop 20).take 2))) ≠
      fromBytesBE ((data.drop 22).take 4) then
    .error .crcMismatch
  else
    .ok ⟨fromBytesBE (data.take 4), (data.drop 4).take 4, (data.drop 8).take 4,
      fromBytesBE ((data.drop 12).take 8),
      (data.drop HEADER_SIZE).take (fromBytesBE ((data.drop 20).take 2))⟩

/-! ### Slicing lemmas for the packed layout -/

theorem pack_eq (seq : Nat) (src_ip dst_ip : List Nat) (ts : Nat) (p : List Nat)
    (h : seq < 2 ^ 32 ∧ p.length ≤ MAX_PAYLOAD_SIZE ∧
      validIp src_ip ∧ validIp dst_ip ∧ ts < 2 ^ 64) :
    pack seq src_ip dst_ip ts p =
      some (toBytesBE 4 seq ++ (src_ip ++ (dst_ip ++ (toBytesBE 8 ts ++
        (toBytesBE 2 p.length ++ (toBytesBE 4 (crc32 p) ++ p)))))) := by
  unfold pack
  rw [if_pos h]
  simp [List.append_assoc]

theorem packed_length (seq : Nat) (src_ip dst_ip : List Nat) (ts : Nat) (p : List Nat)
    (hsrc : src_ip.length = 4) (hdst : dst_ip.length = 4) :
    (toBytesBE 4 seq ++ (src_ip ++ (dst_ip ++ (toBytesBE 8 ts ++
      (toBytesBE 2 p.length ++ (toBytesBE 4 (crc32 p) ++ p)))))).length = 26 + p.length := by
  simp [toBytesBE_length, hsrc, hdst]
  omega

/-- Round-trip of `unpack` after `pack` (invariant I1 of the spec). -/
theorem unpack_pack (seq : Nat) (src_ip dst_ip : List Nat) (ts : Nat) (p : List Nat)
    (hseq : seq < 2 ^ 32) (hp : p.length ≤ MAX_PAYLOAD_SIZE)
    (hsrc : validIp src_ip) (hdst : validIp dst_ip) (hts : ts < 2 ^ 64)
    (hbytes : ∀ b ∈ p, b < 256) :
    ∃ d, pack seq src_ip dst_ip ts p = some d ∧
      unpack d = .ok ⟨seq, src_ip, dst_ip, ts, p⟩ := by
  set A := toBytesBE 4 seq with hA
  set T := toBytesBE 8 ts with hT
  set L := toBytesBE 2 p.length with hL
  set C := toBytesBE 4 (crc32 p) with hC
  set d := A ++ (src_ip ++ (dst_ip ++ (T ++ (L ++ (C ++ p))))) with hd
  refine ⟨d, by rw [pack_eq seq src_ip dst_ip ts p ⟨hseq, hp, hsrc, hdst, hts⟩], ?_⟩
  obtain ⟨hsrcLen, _⟩ := hsrc
  obtain ⟨hdstLen, _⟩ := hdst
  have hAlen : A.length = 4 := toBytesBE_length 4 seq
  have hTlen : T.length = 8 := toBytesBE_length 8 ts
  have hLlen : L.length = 2 := toBytesBE_length 2 p.length
  have hClen : C.length = 4 := toBytesBE_length 4 (crc32 p)
  have hdlen : d.length = 26 + p.length := by
    simp [hd, hAlen, hTlen, hLlen, hClen, hsrcLen, hdstLen]
    omega
  have htake4 : d.take 4 = A := by
    rw [hd, show (4 : Nat) = A.length from hAlen.symm, take_len_append]
  have hdrop4 : d.drop 4 = src_ip ++ (dst_ip ++ (T ++ (L ++ (C ++ p)))) := by
    rw [hd, show (4 : Nat) = A.length from hAlen.symm, drop_len_append]
  have hdrop8 : d.drop 8 = dst_ip ++ (T ++ (L ++ (C ++ p))) := by
    have : d.drop 8 = (d.drop 4).drop 4 := by rw [List.drop_drop]
    rw [this, hdrop4, show (4 : Nat) = src_ip.length from hsrcLen.symm, drop_len_append]
  have hdrop12 : d.drop 12 = T ++ (L ++ (C ++ p)) := by
    have : d.drop 12 = (d.drop 8).drop 4 := by rw [List.drop_drop]
    rw [this, hdrop8, show (4 : Nat) = dst_ip.length from hdstLen.symm, drop_len_append]
  have hdrop20 : d.drop 20 = L ++ (C ++ p) := by
    have : d.drop 20 = (d.drop 12).drop 8 := by rw [List.drop_drop]
    rw [this, hdrop12, show (8 : Nat) = T.length from hTlen.symm, drop_len_append]
  have hdrop22 : d.drop 22 = C ++ p := by
    have : d.drop 22 = (d.drop 20).drop 2 := by rw [List.drop_drop]
    rw [this, hdrop20, show (2 : Nat) = L.length from hLlen.symm, drop_len_append]
  have hdrop26 : d.drop 26 = p := by
    have : d.drop 26 = (d.drop 22).drop 4 := by rw [List.drop_drop]
    rw [this, hdrop22, show (4 : Nat) = C.length from hClen.symm, drop_len_append]
  have htakeSrc : (d.drop 4).take 4 = src_ip := by
    rw [hdrop4, show (4 : Nat) = src_ip.length from hsrcLen.symm, take_len_append]
  have htakeDst : (d.drop 8).take 4 = dst_ip := by
    rw [hdrop8, show (4 : Nat) = dst_ip.length from hdstLen.symm, take_len_append]
  have htakeT : (d.drop 12).take 8 = T := by
    rw [hdrop12, show (8 : Nat) = T.length from hTlen.symm, take_len_append]
  have htakeL : (d.drop 20).take 2 = L := by
    rw [hdrop20, show (2 : Nat) = L.length from hLlen.symm, take_len_append]
  have htakeC : (d.drop 22).take 4 = C := by
    rw [hdrop22, show (4 : Nat) = C.length from hClen.symm, take_len_append]
  have hseqDec : fromBytesBE A = seq := by
    rw [hA]; exact fromBytesBE_toBytesBE 4 seq (by norm_num at hseq ⊢; exact hseq)
  have htsDec : fromBytesBE T = ts := by
    rw [hT]; exact fromBytesBE_toBytesBE 8 ts (by norm_num at hts ⊢; exact hts)
  have hLDec : fromBytesBE L = p.length := by
    rw [hL]
    refine fromBytesBE_toBytesBE 2 p.length ?_
    have : MAX_PAYLOAD_SIZE < 256 ^ 2 := by norm_num [MAX_PAYLOAD_SIZE]
    omega
  have hCDec : fromBytesBE C = crc32 p := by
    rw [hC]
    refine fromBytesBE_toBytesBE 4 (crc32 p) ?_
    have := crc32_lt p hbytes
    norm_num at this ⊢
    exact this
  have hpayload : (d.drop 26).take p.length = p := by
    rw [hdrop26, List.take_of_length_le (le_refl p.length)]
  unfold unpack
  rw [if_neg (by simp only [HEADER_SIZE, hdlen]; omega : ¬ d.length < HEADER_SIZE)]
  simp only [HEADER_SIZE]
  rw [htakeL, hLDec]
  rw [if_neg (by omega : ¬ 26 + p.length > d.length)]
  rw [hpayload, htakeC, hCDec, if_neg (by simp)]
  rw [htake4, hseqDec, htakeSrc, htakeDst, htakeT, htsDec]

/-- Claim C1 — Packet round-trip: for every payload of at most 65 000
bytes, every `seq` below `2^32`, every pair of valid IPv4 addresses (four
octets each, the canonical image of a dotted quad) and every timestamp
below `2^64`, `unpack` after `pack` succeeds and returns exactly the
packed fields. -/
theorem C1_packet_round_trip (seq : Nat) (src_ip dst_ip : List Nat) (ts : Nat)
    (p : List Nat) (hseq : seq < 2 ^ 32) (hp : p.length ≤ 65000)
    (hsrc : validIp src_ip) (hdst : validIp dst_ip) (hts : ts < 2 ^ 64)
    (hbytes : ∀ b ∈ p, b < 256) :
    ∃ d, pack seq src_ip dst_ip ts p = some d ∧
      unpack d = .ok ⟨seq, src_ip, dst_ip, ts, p⟩ :=
  unpack_pack seq src_ip dst_ip ts p hseq
    (by norm_num [MAX_PAYLOAD_SIZE]; omega) hsrc hdst hts hbytes

/-- Witness for C1 at a concrete packet. -/
theorem C1_packet_round_trip_witness :
    ∃ d, pack 1 [10, 0, 0, 1] [10, 0, 0, 2] 7 [72, 105] = some d ∧
      unpack d = .ok ⟨1, [10, 0, 0, 1], [10, 0, 0, 2], 7, [72, 105]⟩ :=
  C1_packet_round_trip 1 [10, 0, 0, 1] [10, 0, 0, 2] 7 [72, 105]
    (by norm_num) (by norm_num) (by decide) (by decide) (by norm_num) (by decide)

/-- Claim C5 — `unpack` fails exactly in three cases with distinct error
kinds, checked in order: `TooShort` when the buffer has fewer than 26
bytes; otherwise `BadLength` when 26 plus the declared length field
exceeds the buffer; otherwise `CrcMismatch` when the CRC32 of the
declared-length payload slice differs from the header CRC field.  On
every other input `unpack` succeeds, and bytes trailing beyond
`26 + declared length` are ignored. -/
theorem C5_unpack_error_kinds (d : List Nat) :
    (unpack d = .error .tooShort ↔ d.length < HEADER_SIZE) ∧
    (unpack d = .error .badLength ↔
      HEADER_SIZE ≤ d.length ∧ d.length < HEADER_SIZE + declaredLength d) ∧
    (unpack d = .error .crcMismatch ↔
      HEADER_SIZE ≤ d.length ∧ HEADER_SIZE + declaredLength d ≤ d.length ∧
        crc32 ((d.drop HEADER_SIZE).take (declaredLength d)) ≠
          fromBytesBE ((d.drop 22).take 4)) ∧
    ((∃ f, unpack d = .ok f) ↔
      HEADER_SIZE ≤ d.length ∧ HEADER_SIZE + declaredLength d ≤ d.length ∧
        crc32 ((d.drop HEADER_SIZE).take (declaredLength d)) =
          fromBytesBE ((d.drop 22).take 4)) ∧
    (∀ f extra, unpack d = .ok f → unpack (d ++ extra) = .ok f) := by
  have hchar : ∀ e : List Nat,
      (unpack e = .error .tooShort ↔ e.length < HEADER_SIZE) ∧
      (unpack e = .error .badLength ↔
        HEADER_SIZE ≤ e.length ∧ e.length < HEADER_SIZE + declaredLength e) ∧
      (unpack e = .error .crcMismatch ↔
        HEADER_SIZE ≤ e.length ∧ HEADER_SIZE + declaredLength e ≤ e.length ∧
          crc32 ((e.drop HEADER_SIZE).take (declaredLength e)) ≠
            fromBytesBE ((e.drop 22).take 4)) ∧
      ((∃ f, unpack e = .ok f) ↔
        HEADER_SIZE ≤ e.length ∧ HEADER_SIZE + declaredLength e ≤ e.length ∧
          crc32 ((e.drop HEADER_SIZE).take (declaredLength e)) =
            fromBytesBE ((e.drop 22).take 4)) := by
    intro e
    unfold unpack declaredLength
    split_ifs with h1 h2 h3 <;>
      refine ⟨?_, ?_, ?_, ?_⟩ <;> simp_all
  refine ⟨(hchar d).1, (hchar d).2.1, (hchar d).2.2.1, (hchar d).2.2.2, ?_⟩
  intro f extra hok
  obtain ⟨hge, hfit, hcrc⟩ := ((hchar d).2.2.2).mp ⟨f, hok⟩
  have hH : HEADER_SIZE = 26 := rfl
  have hDL : fromBytesBE ((d.drop 20).take 2) = declaredLength d := rfl
  have hge' : 26 ≤ d.length := by rw [hH] at hge; exact hge
  have hfit' : 26 + declaredLength d ≤ d.length := by rw [hH] at hfit; exact hfit
  have hslice : ∀ (n k : Nat), n + k ≤ d.length →
      ((d ++ extra).drop n).take k = (d.drop n).take k := by
    intro n k hnk
    rw [List.drop_append_of_le_length (by omega),
      List.take_append_of_le_length (by rw [List.length_drop]; omega)]
  have htake4e : (d ++ extra).take 4 = d.take 4 :=
    List.take_append_of_le_length (by omega)
  unfold unpack at hok ⊢
  rw [if_neg (by rw [hH, List.length_append]; omega)]
  rw [if_neg (by rw [hH]; omega)] at hok
  rw [hslice 20 2 (by omega)]
  rw [if_neg (by rw [List.length_append, hDL, hH]; push_neg; omega)]
  rw [if_neg (by rw [hDL, hH]; push_neg; omega)] at hok
  rw [hslice HEADER_SIZE (fromBytesBE ((d.drop 20).take 2)) (by rw [hDL]; exact hfit),
      hslice 22 4 (by omega)]
  rw [if_neg (by push_neg; rw [hDL]; exact hcrc)]
  rw [if_neg (by push_neg; rw [hDL]; exact hcrc)] at hok
  rw [htake4e, hslice 4 4 (by omega), hslice 8 4 (by omega), hslice 12 8 (by omega)]
  exact hok

/-- Witness for C5: the empty buffer fails with kind `TooShort`. -/
theorem C5_unpack_error_kinds_witness : unpack [] = .error .tooShort :=
  ((C5_unpack_error_kinds []).1).mpr (by simp [HEADER_SIZE])

/-! ## Cipher (`Matlab/shared/crypto_utils.py`)

`CryptoManager` XORs the data with the keystream `nonce ++ key` repeated
cyclically; `encrypt` prepends the 4 random nonce bytes, `decrypt` strips
them.  The random nonce drawn by `os.urandom(4)` is passed explicitly. -/

/-- Cyclic XOR against a keystream starting at stream index `i`,
mirroring `CryptoManager._xor` (which XORs byte `i` of the data with
`keystream[i % len(keystream)]`). -/
def xorStream (keystream : List Nat) (i : Nat) : List Nat → List Nat
  | [] => []
  | b :: rest => (b ^^^ keystream.getD (i % keystream.length) 0) :: xorStream keystream (i + 1) rest

/-- Encryption, mirroring `CryptoManager.encrypt`: fails on empty input,
otherwise emits `nonce ++ XOR(plaintext, nonce ++ key)`. -/
def encrypt (key nonce plaintext : List Nat) : Option (List Nat) :=
  if plaintext = [] then none
  else some (nonce ++ xorStream (nonce ++ key) 0 plaintext)

/-- Decryption, mirroring `CryptoManager.decrypt`: fails on fewer than 5
bytes, otherwise XORs the tail against `nonce ++ key` where the nonce is
the first 4 bytes. -/
def decrypt (key data : List Nat) : Option (List Nat) :=
  if data.length < 5 then none
  else some (xorStream (data.take 4 ++ key) 0 (data.drop 4))

theorem xorStream_length (ks : List Nat) (data : List Nat) :
    ∀ i, (xorStream ks i data).length = data.length := by
  induction data with
  | nil => intro i; rfl
  | cons b rest ih => intro i; simp [xorStream, ih (i + 1)]

theorem xorStream_involution (ks : List Nat) (data : List Nat) :
    ∀ i, xorStream ks i (xorStream ks i data) = data := by
  induction data with
  | nil => intro i; rfl
  | cons b rest ih =>
    intro i
    simp only [xorStream, Nat.xor_cancel_right, ih (i + 1)]

/-- Claim C3 — Cipher involution: for every non-empty plaintext, every
key of at least 8 bytes and every 4-byte nonce value drawn during
encryption, decrypting the encrypted blob returns the plaintext. -/
theorem C3_cipher_involution (key nonce plaintext : List Nat)
    (hkey : 8 ≤ key.length) (hnonce : nonce.length = 4) (hp : plaintext ≠ []) :
    ∀ ct, encrypt key nonce plaintext = some ct → decrypt key ct = some plaintext := by
  intro ct hct
  unfold encrypt at hct
  rw [if_neg hp] at hct
  obtain rfl : nonce ++ xorStream (nonce ++ key) 0 plaintext = ct := by
    simpa using hct
  have hlen : (nonce ++ xorStream (nonce ++ key) 0 plaintext).length =
      4 + (xorStream (nonce ++ key) 0 plaintext).length := by
    simp [hnonce]
  have hxlen : (xorStream (nonce ++ key) 0 plaintext).length = plaintext.length :=
    xorStream_length (nonce ++ key) plaintext 0
  unfold decrypt
  rw [if_neg (by
    rw [hlen, hxlen]
    have : 1 ≤ plaintext.length := by
      cases plaintext with
      | nil => exact absurd rfl hp
      | cons a l => simp
    omega)]
  rw [show (4 : Nat) = nonce.length from hnonce.symm, take_len_append, drop_len_append]
  rw [xorStream_involution]

/-- Witness for C3 at a concrete key, nonce and plaintext. -/
theorem C3_cipher_involution_witness :
    decrypt [1, 1, 1, 1, 1, 1, 1, 1] [9, 9, 9, 9, 12] = some [5] :=
  C3_cipher_involution [1, 1, 1, 1, 1, 1, 1, 1] [9, 9, 9, 9] [5]
    (by decide) (by decide) (by decide) [9, 9, 9, 9, 12] (by decide)

/-! ## FEC codec (`Matlab/shared/fec_utils.py`)

`FECCodec.encode` repeats each byte `r` times; `FECCodec.decode` splits
the input into consecutive `r`-byte groups and majority-votes each group.
`Counter.most_common(1)[0]` returns the key with the maximal count,
breaking ties by first occurrence in the group, which is the first
element of the group whose count is maximal. -/

/-- Split into consecutive `r`-element groups, mirroring the loop
`for i in range(0, len(data), repetition)` with slices `data[i:i+r]`. -/
def chunkExact {α : Type} (r : Nat) (l : List α) : List (List α) :=
  if h : l.length = 0 ∨ r = 0 then []
  else l.take r :: chunkExact r (l.drop r)
termination_by l.length
decreasing_by
  push_neg at h
  obtain ⟨h1, h2⟩ := h
  simp only [List.length_drop]
  omega

/-- Count of the most frequent value of a group (the `count` of
`counter.most_common(1)[0]`). -/
def maxCount (g : List Nat) : Nat :=
  (g.map fun c => g.count c).foldr max 0

/-- The modal byte of a group: the first element of the group whose
occurrence count is maximal, mirroring `Counter(chunk).most_common(1)[0]`
(Counter keys are in first-occurrence order and `most_common` is a
stable descending sort by count). -/
def modalByte (g : List Nat) : Nat :=
  (g.find? fun c => g.count c == maxCount g).getD 0

/-- Repetition encoding, mirroring `FECCodec.encode`. -/
def FECencode (r : Nat) (data : List Nat) : List Nat :=
  (data.map (List.replicate r)).flatten

/-- Majority-vote decoding with correction count, mirroring
`FECCodec.decode` (the constructor validates `1 ≤ r ≤ 15`; `decode`
raises on a length that is not a multiple of `r`). -/
def FECdecode (r : Nat) (data : List Nat) : Option (List Nat × Nat) :=
  if r < 1 ∨ 15 < r then none
  else if data.length % r ≠ 0 then none
  else some ((chunkExact r data).map modalByte,
    ((chunkExact r data).map fun g => r - maxCount g).sum)

/-- Number of positions where two equal-length buffers differ (an error
pattern is a choice of such positions). -/
def diffCount (xs ys : List Nat) : Nat :=
  ((xs.zip ys).filter fun q => q.1 ≠ q.2).length

theorem FECencode_cons (r b : Nat) (rest : List Nat) :
    FECencode r (b :: rest) = List.replicate r b ++ FECencode r rest := by
  simp [FECencode]

theorem FECencode_length (r : Nat) (p : List Nat) :
    (FECencode r p).length = r * p.length := by
  induction p with
  | nil => simp [FECencode]
  | cons b rest ih =>
    rw [FECencode_cons]
    simp only [List.length_append, List.length_replicate, List.length_cons, ih]
    ring

theorem FECencode_group (r : Nat) (p : List Nat) :
    ∀ i < p.length, ((FECencode r p).drop (i * r)).take r = List.replicate r (p.getD i 0) := by
  induction p with
  | nil => intro i hi; simp at hi
  | cons b rest ih =>
    intro i hi
    cases i with
    | zero =>
      rw [FECencode_cons]
      simp only [Nat.zero_mul, List.drop_zero, List.getD_cons_zero]
      have htake := take_len_append (List.replicate r b) (FECencode r rest)
      rw [List.length_replicate] at htake
      exact htake
    | succ i =>
      rw [FECencode_cons]
      have hstep : ((List.replicate r b ++ FECencode r rest).drop ((i + 1) * r)) =
          (FECencode r rest).drop (i * r) := by
        have hmul : (i + 1) * r = r + i * r := by ring
        have hdrop := drop_len_append (List.replicate r b) (FECencode r rest)
        rw [List.length_replicate] at hdrop
        rw [hmul, ← List.drop_drop, hdrop]
      rw [hstep]
      simpa using ih i (by simpa using hi)

theorem diffCount_replicate (b : Nat) (gd : List Nat) :
    diffCount gd (List.replicate gd.length b) = (gd.filter fun x => x ≠ b).length := by
  induction gd with
  | nil => rfl
  | cons a t ih =>
    simp only [diffCount, List.length_cons, List.replicate_succ, List.zip_cons_cons] at *
    by_cases hab : a = b
    · subst hab
      simpa [List.filter_cons] using ih
    · simpa [List.filter_cons, hab] using ih

theorem count_add_filter_ne (c : List Nat) (b : Nat) :
    c.count b + (c.filter fun x => x ≠ b).length = c.length := by
  simp only [ne_eq, decide_not]
  induction c with
  | nil => rfl
  | cons a t ih =>
    by_cases hab : a = b
    · subst hab
      rw [List.count_cons_self, List.filter_cons, if_neg (by simp)]
      simp only [List.length_cons]
      omega
    · rw [List.count_cons_of_ne (fun h => hab h.symm), List.filter_cons,
        if_pos (by simp [hab])]
      simp only [List.length_cons]
      omega

theorem count_ne_le_filter (c : List Nat) (b x : Nat) (hx : x ≠ b) :
    c.count x ≤ (c.filter fun y => y ≠ b).length := by
  simp only [ne_eq, decide_not]
  induction c with
  | nil => simp
  | cons a t ih =>
    by_cases hax : a = x
    · subst hax
      rw [List.count_cons_self, List.filter_cons, if_pos (by simp [hx])]
      simp only [List.length_cons]
      omega
    · rw [List.count_cons_of_ne (fun h => hax h.symm), List.filter_cons]
      split
      · simp only [List.length_cons]
        omega
      · exact ih

theorem foldr_max_le {l : List Nat} {m : Nat} (h : ∀ x ∈ l, x ≤ m) :
    l.foldr max 0 ≤ m := by
  induction l with
  | nil => simp
  | cons a t ih =>
    simp only [List.foldr_cons, max_le_iff]
    exact ⟨h a (by simp), ih fun x hx => h x (by simp [hx])⟩

theorem le_foldr_max {l : List Nat} {x : Nat} (h : x ∈ l) : x ≤ l.foldr max 0 := by
  induction l with
  | nil => simp at h
  | cons a t ih =>
    simp only [List.foldr_cons]
    rcases List.mem_cons.mp h with rfl | hx
    · exact le_max_left _ _
    · exact le_trans (ih hx) (le_max_right _ _)

theorem foldr_max_mem {l : List Nat} (h : l ≠ []) : l.foldr max 0 ∈ l := by
  induction l with
  | nil => exact absurd rfl h
  | cons a t ih =>
    by_cases ht : t = []
    · subst ht; simp
    · simp only [List.foldr_cons]
      rcases le_total a (t.foldr max 0) with hle | hle
      · rw [max_eq_right hle]
        exact List.mem_cons_of_mem a (ih ht)
      · rw [max_eq_left hle]
        exact List.mem_cons_self a t

theorem count_le_maxCount (g : List Nat) (x : Nat) (hx : x ∈ g) :
    g.count x ≤ maxCount g :=
  le_foldr_max (List.mem_map.mpr ⟨x, hx, rfl⟩)

theorem maxCount_attained {g : List Nat} (h : g ≠ []) :
    ∃ x ∈ g, g.count x = maxCount g := by
  have hne : g.map (fun c => g.count c) ≠ [] := by
    simpa using h
  have hmem := foldr_max_mem hne
  rcases List.mem_map.mp hmem with ⟨x, hx, hcx⟩
  exact ⟨x, hx, hcx⟩

theorem find?_nat_first (p : Nat → Bool) (l : List Nat) (x : Nat)
    (h : l.find? p = some x) :
    ∃ k < l.length, l.getD k 0 = x ∧ p x = true ∧ ∀ j < k, p (l.getD j 0) = false := by
  induction l generalizing x with
  | nil => simp [List.find?] at h
  | cons a t ih =>
    by_cases hp : p a
    · rw [List.find?_cons_of_pos _ hp] at h
      obtain rfl : a = x := by simpa using h
      exact ⟨0, by simp, rfl, hp, by omega⟩
    · rw [List.find?_cons_of_neg _ hp] at h
      obtain ⟨k, hk, hget, hpx, hfirst⟩ := ih x h
      refine ⟨k + 1, by simpa using hk, by simpa using hget, hpx, ?_⟩
      intro j hj
      cases j with
      | zero => simpa using hp
      | succ j => simpa using hfirst j (by omega)

/-- A strict majority value is returned by the majority vote. -/
theorem modalByte_of_strict_majority (g : List Nat) (b : Nat) (hb : b ∈ g)
    (hmaj : ∀ x, x ≠ b → g.count x < g.count b) : modalByte g = b := by
  have hmax : maxCount g = g.count b := by
    refine le_antisymm ?_ (count_le_maxCount g b hb)
    apply foldr_max_le
    intro x hx
    rcases List.mem_map.mp hx with ⟨c, hc, rfl⟩
    by_cases hcb : c = b
    · subst hcb; exact le_refl _
    · exact le_of_lt (hmaj c hcb)
  have hfind : g.find? (fun c => g.count c == maxCount g) ≠ none := by
    rw [Ne, List.find?_eq_none]
    push_neg
    exact ⟨b, hb, by simp [hmax]⟩
  obtain ⟨x, hx⟩ := Option.ne_none_iff_exists.mp hfind
  have hpx := List.find?_some hx.symm
  have hxg := List.mem_of_find?_eq_some hx.symm
  have hcnt : g.count x = g.count b := by
    rw [hmax] at hpx
    simpa using hpx
  have hxb : x = b := by
    by_contra hne
    exact absurd hcnt (Nat.ne_of_lt (hmaj x hne))
  rw [modalByte, ← hx, hxb]
  rfl

theorem chunkExact_nil {α : Type} (r : Nat) : chunkExact r ([] : List α) = [] := by
  rw [chunkExact]
  simp

theorem chunkExact_cons {α : Type} (r : Nat) (hr : 0 < r) (c rest : List α)
    (hc : c.length = r) : chunkExact r (c ++ rest) = c :: chunkExact r rest := by
  have hcne : c ≠ [] := by
    intro hcnil
    rw [hcnil] at hc
    simp at hc
    omega
  rw [chunkExact]
  rw [dif_neg (by push_neg; exact ⟨by simp [hcne], by omega⟩)]
  rw [← hc, take_len_append, drop_len_append]

/-- A value outnumbering every other value in its group wins the vote. -/
theorem modal_chunk (r e b : Nat) (c : List Nat) (hc : c.length = r) (he : 2 * e < r)
    (hd : (c.filter fun x => x ≠ b).length ≤ e) : modalByte c = b := by
  have hcount := count_add_filter_ne c b
  have hbmem : b ∈ c := List.count_pos_iff.mp (by omega)
  apply modalByte_of_strict_majority c b hbmem
  intro x hx
  have := count_ne_le_filter c b x hx
  omega

theorem decode_chunks (r : Nat) (hr : 0 < r) :
    ∀ (p d : List Nat), d.length = r * p.length →
    (∀ i < p.length,
      (((d.drop (i * r)).take r).filter fun x => x ≠ p.getD i 0).length ≤ (r - 1) / 2) →
    (chunkExact r d).map modalByte = p := by
  intro p
  induction p with
  | nil =>
    intro d hlen _
    obtain rfl : d = [] := List.length_eq_zero.mp (by simpa using hlen)
    simp [chunkExact_nil]
  | cons b rest ih =>
    intro d hlen herr
    have hdlen : d.length = r + r * rest.length := by
      rw [hlen, List.length_cons]; ring
    have htlen : (d.take r).length = r := by
      rw [List.length_take]; omega
    have hchain : chunkExact r d = d.take r :: chunkExact r (d.drop r) := by
      conv_lhs => rw [(List.take_append_drop r d).symm]
      exact chunkExact_cons r hr _ _ htlen
    rw [hchain, List.map_cons]
    congr 1
    · refine modal_chunk r ((r - 1) / 2) b (d.take r) htlen (by omega) ?_
      have h0 := herr 0 (by simp)
      simpa using h0
    · refine ih (d.drop r) (by rw [List.length_drop]; omega) ?_
      intro i hi
      have hshift := herr (i + 1) (by simpa using hi)
      have hdd : (d.drop r).drop (i * r) = d.drop ((i + 1) * r) := by
        rw [List.drop_drop]
        congr 1
        ring
      rw [hdd]
      simpa using hshift

theorem chunk_map_eq {β : Type} (f : List Nat → β) (r : Nat) (hr : 0 < r) :
    ∀ (m : Nat) (d : List Nat), d.length = r * m →
    (chunkExact r d).map f = (List.range m).map fun i => f ((d.drop (i * r)).take r) := by
  intro m
  induction m with
  | zero =>
    intro d hlen
    obtain rfl : d = [] := List.length_eq_zero.mp (by simpa using hlen)
    simp [chunkExact_nil]
  | succ m ih =>
    intro d hlen
    have hdlen : d.length = r + r * m := by rw [hlen]; ring
    have htlen : (d.take r).length = r := by rw [List.length_take]; omega
    have hchain : chunkExact r d = d.take r :: chunkExact r (d.drop r) := by
      conv_lhs => rw [(List.take_append_drop r d).symm]
      exact chunkExact_cons r hr _ _ htlen
    rw [hchain, List.map_cons, List.range_succ_eq_map, List.map_cons, List.map_map]
    congr 1
    · simp
    · rw [ih (d.drop r) (by rw [List.length_drop]; omega)]
      apply List.map_congr_left
      intro i _
      simp only [Function.comp_apply]
      congr 2
      rw [List.drop_drop]
      congr 1
      simp [Nat.succ_mul]
      ring

theorem range_map_getD (p : List Nat) :
    ((List.range p.length).map fun i => p.getD i 0) = p := by
  induction p with
  | nil => simp
  | cons a t ih =>
    rw [List.length_cons, List.range_succ_eq_map, List.map_cons, List.map_map]
    congr 1

/-- Claim C2 — FEC correction bound: for every byte string `p`, every
repetition factor `r ∈ [1, 15]` and every corrupted buffer that differs
from `encode(p, r)` in at most `⌊(r−1)/2⌋` positions inside each
consecutive `r`-byte group, decoding with the same `r` succeeds (never
raises) and returns `p` as the first component. -/
theorem C2_fec_correction_bound (p d : List Nat) (r : Nat)
    (hr1 : 1 ≤ r) (hr15 : r ≤ 15)
    (hlen : d.length = (FECencode r p).length)
    (herr : ∀ i < p.length,
      diffCount ((d.drop (i * r)).take r) (((FECencode r p).drop (i * r)).take r) ≤ (r - 1) / 2) :
    ∃ c, FECdecode r d = some (p, c) := by
  have hr : 0 < r := hr1
  have hlen2 : d.length = r * p.length := by rw [hlen, FECencode_length]
  have herr2 : ∀ i < p.length,
      (((d.drop (i * r)).take r).filter fun x => x ≠ p.getD i 0).length ≤ (r - 1) / 2 := by
    intro i hi
    have h := herr i hi
    rw [FECencode_group r p i hi] at h
    have hglen : ((d.drop (i * r)).take r).length = r := by
      rw [List.length_take, List.length_drop]
      have hmul := Nat.mul_le_mul_left r (show i + 1 ≤ p.length from hi)
      have hexp : r * (i + 1) = i * r + r := by ring
      omega
    calc (((d.drop (i * r)).take r).filter fun x => x ≠ p.getD i 0).length
        = diffCount ((d.drop (i * r)).take r)
            (List.replicate ((d.drop (i * r)).take r).length (p.getD i 0)) :=
          (diffCount_replicate (p.getD i 0) ((d.drop (i * r)).take r)).symm
      _ = diffCount ((d.drop (i * r)).take r) (List.replicate r (p.getD i 0)) := by rw [hglen]
      _ ≤ (r - 1) / 2 := h
  refine ⟨((chunkExact r d).map fun g => r - maxCount g).sum, ?_⟩
  unfold FECdecode
  rw [if_neg (by omega)]
  rw [if_neg (by rw [hlen2]; simp [Nat.mul_mod_right])]
  rw [decode_chunks r hr p d hlen2 herr2]

/-- Witness for C2: `r = 3`, payload `[65, 66]`, one corrupted byte in
each 3-byte group. -/
theorem C2_fec_correction_bound_witness :
    ∃ c, FECdecode 3 [65, 0, 65, 66, 66, 9] = some ([65, 66], c) :=
  C2_fec_correction_bound [65, 66] [65, 0, 65, 66, 66, 9] 3
    (by norm_num) (by norm_num) (by decide) (by decide)

/-- Specification of the majority vote: `b` sits at a position `k` of the
group, has a maximal occurrence count, and every element before position
`k` has a strictly smaller count (the deterministic first-in-group
tie-break). -/
def IsFirstModal (g : List Nat) (b : Nat) : Prop :=
  ∃ k, k < g.length ∧ g.getD k 0 = b ∧ (∀ x ∈ g, g.count x ≤ g.count b) ∧
    ∀ j < k, g.count (g.getD j 0) < g.count b

theorem modalByte_isFirstModal (g : List Nat) (hg : g ≠ []) :
    IsFirstModal g (modalByte g) := by
  obtain ⟨x0, hx0, hcx0⟩ := maxCount_attained hg
  have hfind : g.find? (fun c => g.count c == maxCount g) ≠ none := by
    rw [Ne, List.find?_eq_none]
    push_neg
    exact ⟨x0, hx0, by simp [hcx0]⟩
  obtain ⟨x, hx⟩ := Option.ne_none_iff_exists.mp hfind
  obtain ⟨k, hk, hget, hpx, hfirst⟩ := find?_nat_first _ g x hx.symm
  have hmb : modalByte g = x := by rw [modalByte, ← hx]; rfl
  rw [hmb]
  have hcx : g.count x = maxCount g := by simpa using hpx
  refine ⟨k, hk, hget, ?_, ?_⟩
  · intro y hy
    rw [hcx]
    exact count_le_maxCount g y hy
  · intro j hj
    have hne : g.count (g.getD j 0) ≠ maxCount g := by simpa using hfirst j hj
    have hmem : g.getD j 0 ∈ g := by
      rw [List.getD_eq_getElem g 0 (by omega)]
      exact List.getElem_mem _
    have hle := count_le_maxCount g (g.getD j 0) hmem
    rw [hcx]
    omega

theorem chunk_group_length (r : Nat) (hr : 0 < r) (d : List Nat) (i : Nat)
    (hi : i < d.length / r) (hdvd : r ∣ d.length) :
    ((d.drop (i * r)).take r).length = r := by
  rw [List.length_take, List.length_drop]
  obtain ⟨m, hm⟩ := hdvd
  have hmi : i < m := by
    rw [hm, Nat.mul_div_cancel_left m hr] at hi
    exact hi
  have := Nat.mul_le_mul_left r (show i + 1 ≤ m from hmi)
  have hexp : r * (i + 1) = i * r + r := by ring
  omega

theorem getD_range_map {β : Type} [Inhabited β] (g : Nat → β) (m i : Nat) (hi : i < m)
    (dflt : β) : ((List.range m).map g).getD i dflt = g i := by
  rw [List.getD_eq_getElem?_getD, List.getElem?_map, List.getElem?_range hi]
  rfl

/-- Claim C6 — FEC decode specification: decoding fails exactly when the
input length is not a multiple of `r`; on success, each output byte is the
first modal byte of its consecutive `r`-byte group and the corrections
count is the sum of `r − max_count` over the groups. -/
theorem C6_fec_decode_spec (r : Nat) (d : List Nat) (hr1 : 1 ≤ r) (hr15 : r ≤ 15) :
    (FECdecode r d = none ↔ d.length % r ≠ 0) ∧
    (∀ out c, FECdecode r d = some (out, c) →
      out.length = d.length / r ∧
      c = ((List.range (d.length / r)).map fun i =>
        r - maxCount ((d.drop (i * r)).take r)).sum ∧
      ∀ i < d.length / r, IsFirstModal ((d.drop (i * r)).take r) (out.getD i 0)) := by
  have hr : 0 < r := hr1
  constructor
  · unfold FECdecode
    rw [if_neg (by omega)]
    by_cases hmod : d.length % r = 0
    · simp [hmod]
    · simp [hmod]
  · intro out c hsome
    unfold FECdecode at hsome
    rw [if_neg (by omega)] at hsome
    by_cases hmod : d.length % r = 0
    swap
    · rw [if_pos (by simpa using hmod)] at hsome
      exact absurd hsome (by simp)
    rw [if_neg (by simpa using hmod)] at hsome
    simp only [Option.some.injEq, Prod.mk.injEq] at hsome
    obtain ⟨hout, hc⟩ := hsome
    have hdvd : r ∣ d.length := Nat.dvd_of_mod_eq_zero hmod
    have hm : d.length = r * (d.length / r) := (Nat.mul_div_cancel' hdvd).symm
    refine ⟨?_, ?_, ?_⟩
    · rw [← hout, chunk_map_eq modalByte r hr (d.length / r) d hm]
      simp
    · rw [← hc, chunk_map_eq (fun g => r - maxCount g) r hr (d.length / r) d hm]
    · intro i hi
      rw [← hout, chunk_map_eq modalByte r hr (d.length / r) d hm,
        getD_range_map _ _ i hi]
      apply modalByte_isFirstModal
      intro hnil
      have := chunk_group_length r hr d i hi hdvd
      rw [hnil] at this
      simp at this
      omega

/-- Witness for C6: length 2 is not a multiple of `r = 3`, so decoding
fails. -/
theorem C6_fec_decode_spec_witness : FECdecode 3 [1, 1] = none :=
  (C6_fec_decode_spec 3 [1, 1] (by norm_num) (by norm_num)).1.mpr (by decide)

/-! ## Modulation (`simurf/utils/modulation.py`)

Symbols are embedded as integer I/Q coordinates.  The source divides the
BPSK/QPSK/16-QAM constellations by `1`, `√2` and `√10` respectively to
normalise average power; the hard decisions (`Re < 0`, `Im < 0`,
minimum-distance search over the uniformly scaled constellation) are
invariant under that common positive scale, so they are decided here on
the integer coordinates.  `np.argmin` returns the first index attaining
the minimum. -/

inductive Scheme where
  | bpsk
  | qpsk
  | qam16
  deriving Repr, DecidableEq

/-- BPSK mapping `0 → +1, 1 → −1`, mirroring `bpsk_modulate`. -/
def bpsk_modulate (bits : List Nat) : List (Int × Int) :=
  bits.map fun b => (1 - 2 * Int.ofNat b, 0)

/-- BPSK hard decision `bit = (Re < 0)`, mirroring `bpsk_demodulate`. -/
def bpsk_demodulate (syms : List (Int × Int)) : List Nat :=
  syms.map fun s => if s.1 < 0 then 1 else 0

/-- Gray-coded QPSK pairs `(b0, b1) → (1−2b0, 1−2b1)`, mirroring the
reshape/map of `qpsk_modulate` (the input always has even length after
padding; a leftover single bit cannot occur). -/
def qpskPairs : List Nat → List (Int × Int)
  | b0 :: b1 :: rest => (1 - 2 * Int.ofNat b0, 1 - 2 * Int.ofNat b1) :: qpskPairs rest
  | _ => []

/-- QPSK modulation, padding one zero bit when the length is odd. -/
def qpsk_modulate (bits : List Nat) : List (Int × Int) :=
  qpskPairs (if bits.length % 2 = 1 then bits ++ [0] else bits)

/-- QPSK hard decision: sign slicing of I then Q, interleaved, mirroring
`qpsk_demodulate`. -/
def qpsk_demodulate (syms : List (Int × Int)) : List Nat :=
  (syms.map fun s => [if s.1 < 0 then (1 : Nat) else 0, if s.2 < 0 then (1 : Nat) else 0]).flatten

/-- The 16-QAM constellation (integer coordinates; the source divides by
`√10`). -/
def qam16_constellation : List (Int × Int) :=
  [(-3, -3), (-3, -1), (-3, 1), (-3, 3),
   (-1, -3), (-1, -1), (-1, 1), (-1, 3),
   (1, -3), (1, -1), (1, 1), (1, 3),
   (3, -3), (3, -1), (3, 1), (3, 3)]

/-- Gray labelling: constellation index to 4-bit value
(`qam16_gray_map` in the source). -/
def qam16_gray_map (i : Nat) : Nat :=
  [0b0000, 0b0001, 0b0011, 0b0010, 0b0100, 0b0101, 0b0111, 0b0110,
   0b1100, 0b1101, 0b1111, 0b1110, 0b1000, 0b1001, 0b1011, 0b1010].getD i 0

/-- Inverse Gray labelling: 4-bit value to constellation index
(`qam16_gray_demap` in the source). -/
def qam16_gray_demap (v : Nat) : Nat :=
  [0, 1, 3, 2, 4, 5, 7, 6, 12, 13, 15, 14, 8, 9, 11, 10].getD v 0

/-- 16-QAM groups of four bits (MSB first) mapped through the inverse
Gray labelling onto the constellation. -/
def qam16Groups : List Nat → List (Int × Int)
  | b0 :: b1 :: b2 :: b3 :: rest =>
      qam16_constellation.getD (qam16_gray_demap (8 * b0 + 4 * b1 + 2 * b2 + b3)) (0, 0) ::
        qam16Groups rest
  | _ => []

/-- 16-QAM modulation, padding with zero bits to a multiple of four. -/
def qam16_modulate (bits : List Nat) : List (Int × Int) :=
  qam16Groups (if bits.length % 4 = 0 then bits
    else bits ++ List.replicate (4 - bits.length % 4) 0)

/-- Squared distance between two constellation points (minimising it is
the same as minimising `np.abs(symbol − point)` over the scaled points). -/
def sqDist (s c : Int × Int) : Int :=
  (s.1 - c.1) ^ 2 + (s.2 - c.2) ^ 2

/-- Index of the first minimal element, mirroring `np.argmin`. -/
def argminAux : Nat → Nat → Int → List Int → Nat
  | _, bi, _, [] => bi
  | i, bi, bv, x :: rest =>
      if x < bv then argminAux (i + 1) i x rest else argminAux (i + 1) bi bv rest

/-- First index of the minimum of a list (`np.argmin`). -/
def argminIdx : List Int → Nat
  | [] => 0
  | x :: rest => argminAux 1 0 x rest

/-- Hard decision for one 16-QAM symbol: nearest constellation point,
then Gray labelling, then the four bits MSB first (the loop body of
`qam16_demodulate`). -/
def qam16DemodSym (s : Int × Int) : List Nat :=
  [qam16_gray_map (argminIdx (qam16_constellation.map (sqDist s))) / 8 % 2,
   qam16_gray_map (argminIdx (qam16_constellation.map (sqDist s))) / 4 % 2,
   qam16_gray_map (argminIdx (qam16_constellation.map (sqDist s))) / 2 % 2,
   qam16_gray_map (argminIdx (qam16_constellation.map (sqDist s))) % 2]

/-- 16-QAM hard-decision demodulation, mirroring `qam16_demodulate`. -/
def qam16_demodulate (syms : List (Int × Int)) : List Nat :=
  (syms.map qam16DemodSym).flatten

def bitsPerSymbol : Scheme → Nat
  | .bpsk => 1
  | .qpsk => 2
  | .qam16 => 4

/-- Scheme dispatch of `bits_to_symbols` in `simurf/transmitter.py`. -/
def modulate : Scheme → List Nat → List (Int × Int)
  | .bpsk, bits => bpsk_modulate bits
  | .qpsk, bits => qpsk_modulate bits
  | .qam16, bits => qam16_modulate bits

/-- Scheme dispatch of `symbols_to_bits` in `simurf/receiver.py`. -/
def demodulate_hard : Scheme → List (Int × Int) → List Nat
  | .bpsk, syms => bpsk_demodulate syms
  | .qpsk, syms => qpsk_demodulate syms
  | .qam16, syms => qam16_demodulate syms

/-- Number of zero bits the modulator pads to reach a multiple of the
bits-per-symbol. -/
def padLen (s : Scheme) (n : Nat) : Nat :=
  (bitsPerSymbol s - n % bitsPerSymbol s) % bitsPerSymbol s

theorem bpsk_round_trip (bits : List Nat) (hb : ∀ b ∈ bits, b ≤ 1) :
    bpsk_demodulate (bpsk_modulate bits) = bits := by
  induction bits with
  | nil => rfl
  | cons b rest ih =>
    have hb0 : b ≤ 1 := hb b (by simp)
    have hrest := ih fun x hx => hb x (by simp [hx])
    simp only [bpsk_modulate, bpsk_demodulate, List.map_cons] at *
    rw [hrest]
    interval_cases b <;> simp

theorem qpsk_pairs_round_trip : ∀ (n : Nat) (bits : List Nat), bits.length = 2 * n →
    (∀ b ∈ bits, b ≤ 1) → qpsk_demodulate (qpskPairs bits) = bits := by
  intro n
  induction n with
  | zero =>
    intro bits hlen _
    obtain rfl : bits = [] := List.length_eq_zero.mp (by omega)
    rfl
  | succ n ih =>
    intro bits hlen hb
    match bits, hlen with
    | b0 :: b1 :: rest, hlen =>
      have hb0 : b0 ≤ 1 := hb b0 (by simp)
      have hb1 : b1 ≤ 1 := hb b1 (by simp)
      have hrest : qpsk_demodulate (qpskPairs rest) = rest := by
        refine ih rest (by simp at hlen; omega) fun x hx => hb x (by simp [hx])
      simp only [qpskPairs, qpsk_demodulate, List.map_cons, List.flatten_cons] at *
      rw [hrest]
      interval_cases b0 <;> interval_cases b1 <;> simp

theorem qam16_sym_round_trip (b0 b1 b2 b3 : Nat) (h0 : b0 ≤ 1) (h1 : b1 ≤ 1)
    (h2 : b2 ≤ 1) (h3 : b3 ≤ 1) :
    qam16DemodSym
      (qam16_constellation.getD (qam16_gray_demap (8 * b0 + 4 * b1 + 2 * b2 + b3)) (0, 0)) =
      [b0, b1, b2, b3] := by
  interval_cases b0 <;> interval_cases b1 <;> interval_cases b2 <;>
    interval_cases b3 <;> decide

theorem qam16_groups_round_trip : ∀ (n : Nat) (bits : List Nat), bits.length = 4 * n →
    (∀ b ∈ bits, b ≤ 1) → qam16_demodulate (qam16Groups bits) = bits := by
  intro n
  induction n with
  | zero =>
    intro bits hlen _
    obtain rfl : bits = [] := List.length_eq_zero.mp (by omega)
    rfl
  | succ n ih =>
    intro bits hlen hb
    match bits, hlen with
    | b0 :: b1 :: b2 :: b3 :: rest, hlen =>
      have hb0 : b0 ≤ 1 := hb b0 (by simp)
      have hb1 : b1 ≤ 1 := hb b1 (by simp)
      have hb2 : b2 ≤ 1 := hb b2 (by simp)
      have hb3 : b3 ≤ 1 := hb b3 (by simp)
      have hrest : qam16_demodulate (qam16Groups rest) = rest := by
        refine ih rest (by simp at hlen; omega) fun x hx => hb x (by simp [hx])
      simp only [qam16Groups, qam16_demodulate, List.map_cons, List.flatten_cons] at *
      rw [qam16_sym_round_trip b0 b1 b2 b3 hb0 hb1 hb2 hb3, hrest]
      rfl

/-- Claim C4 — Modulation round-trip: hard-decision demodulation of the
modulated bit string returns the bits extended by the zero padding the
modulator added, and trimming to the original length recovers the bits
exactly (for BPSK, QPSK and 16-QAM). -/
theorem C4_modulation_round_trip (s : Scheme) (bits : List Nat)
    (hb : ∀ b ∈ bits, b ≤ 1) :
    demodulate_hard s (modulate s bits) =
      bits ++ List.replicate (padLen s bits.length) 0 ∧
    (demodulate_hard s (modulate s bits)).take bits.length = bits := by
  have hmain : demodulate_hard s (modulate s bits) =
      bits ++ List.replicate (padLen s bits.length) 0 := by
    cases s with
    | bpsk =>
      simp only [demodulate_hard, modulate, padLen, bitsPerSymbol, Nat.mod_one]
      rw [bpsk_round_trip bits hb]
      simp
    | qpsk =>
      simp only [demodulate_hard, modulate, qpsk_modulate, padLen, bitsPerSymbol]
      by_cases hodd : bits.length % 2 = 1
      · rw [if_pos hodd]
        have hpad : ∀ b ∈ bits ++ [0], b ≤ 1 := by
          intro b hbmem
          rcases List.mem_append.mp hbmem with h | h
          · exact hb b h
          · simp at h; omega
        rw [qpsk_pairs_round_trip ((bits.length + 1) / 2) (bits ++ [0])
          (by simp; omega) hpad]
        congr 1
        rw [hodd]
        rfl
      · rw [if_neg hodd]
        rw [qpsk_pairs_round_trip (bits.length / 2) bits (by omega) hb]
        have hz : bits.length % 2 = 0 := by omega
        rw [hz]
        simp
    | qam16 =>
      simp only [demodulate_hard, modulate, qam16_modulate, padLen, bitsPerSymbol]
      by_cases hrem : bits.length % 4 = 0
      · rw [if_pos hrem]
        rw [qam16_groups_round_trip (bits.length / 4) bits (by omega) hb]
        rw [hrem]
        simp
      · rw [if_neg hrem]
        have hpad : ∀ b ∈ bits ++ List.replicate (4 - bits.length % 4) 0, b ≤ 1 := by
          intro b hbmem
          rcases List.mem_append.mp hbmem with h | h
          · exact hb b h
          · rw [List.eq_of_mem_replicate h]; omega
        rw [qam16_groups_round_trip ((bits.length + (4 - bits.length % 4)) / 4)
          (bits ++ List.replicate (4 - bits.length % 4) 0) (by simp; omega) hpad]
        congr 2
        omega
  refine ⟨hmain, ?_⟩
  rw [hmain, List.take_append_of_le_length (le_refl bits.length),
    List.take_of_length_le (le_refl bits.length)]

/-- Witness for C4 at a concrete bit string under 16-QAM (one padding
bit group). -/
theorem C4_modulation_round_trip_witness :
    demodulate_hard Scheme.qam16 (modulate Scheme.qam16 [1, 0, 1]) = [1, 0, 1, 0] ∧
    (demodulate_hard Scheme.qam16 (modulate Scheme.qam16 [1, 0, 1])).take 3 = [1, 0, 1] := by
  have h := C4_modulation_round_trip Scheme.qam16 [1, 0, 1] (by decide)
  exact ⟨by rw [h.1]; rfl, h.2⟩

/-! ## Frame synchronisation (`simurf/receiver.py`)

`_find_sync_pattern` maps bits and pattern to ±1, cross-correlates in
`valid` mode, takes the first index of the maximal absolute correlation
(`np.argmax`), and declares sync only when the normalised value strictly
exceeds `sync_threshold` (`max_corr_value > self.sync_threshold`). -/

/-- The 8-bit START pattern `10101100` (`start_seq` in the source). -/
def START_SEQ : List Nat := [1, 0, 1, 0, 1, 1, 0, 0]

/-- The bitwise complement `01010011` of the START pattern. -/
def COMPLEMENT_SEQ : List Nat := [0, 1, 0, 1, 0, 0, 1, 1]

/-- Bit to bipolar value, mirroring `2 * bits - 1`. -/
def bipolar (b : Nat) : Int := 2 * Int.ofNat b - 1

/-- Sliding-window correlation value at window position `i`
(`np.correlate(bits_bipolar, pattern_bipolar, mode="valid")[i]`). -/
def corrAt (bits pattern : List Nat) (i : Nat) : Int :=
  ((List.range pattern.length).map fun j =>
    bipolar (bits.getD (i + j) 0) * bipolar (pattern.getD j 0)).sum

/-- The full valid-mode correlation sequence. -/
def corrList (bits pattern : List Nat) : List Int :=
  (List.range (bits.length - pattern.length + 1)).map (corrAt bits pattern)

/-- Scan for the first index of the maximal absolute value (`np.argmax`
over `np.abs(correlation)` returns the first maximising index). -/
def argmaxAbsAux : Nat → Nat → Nat → List Int → Nat
  | _, bi, _, [] => bi
  | i, bi, bv, x :: rest =>
      if x.natAbs > bv then argmaxAbsAux (i + 1) i x.natAbs rest
      else argmaxAbsAux (i + 1) bi bv rest

/-- First index of the maximal absolute value of a list. -/
def argmaxAbs : List Int → Nat
  | [] => 0
  | x :: rest => argmaxAbsAux 1 0 x.natAbs rest

/-- Sync-pattern search, mirroring `_find_sync_pattern` with the
receiver's `sync_threshold` passed explicitly; `none` models the `-1`
(`SyncLost`) return. -/
def findSyncPattern (bits pattern : List Nat) (threshold : ℚ) : Option Nat :=
  if bits.length < pattern.length then none
  else if (((corrList bits pattern).getD (argmaxAbs (corrList bits pattern)) 0).natAbs : ℚ) /
      (pattern.length : ℚ) > threshold then
    some (argmaxAbs (corrList bits pattern))
  else none

theorem argmaxAbsAux_spec (l : List Int) : ∀ (i bi bv : Nat),
    (argmaxAbsAux i bi bv l = bi ∧ ∀ j < l.length, (l.getD j 0).natAbs ≤ bv) ∨
    (∃ j < l.length, argmaxAbsAux i bi bv l = i + j ∧ bv < (l.getD j 0).natAbs ∧
      (∀ j2 < l.length, (l.getD j2 0).natAbs ≤ (l.getD j 0).natAbs) ∧
      (∀ j2 < j, (l.getD j2 0).natAbs < (l.getD j 0).natAbs)) := by
  induction l with
  | nil =>
    intro i bi bv
    left
    exact ⟨rfl, fun j hj => by simp at hj⟩
  | cons x rest ih =>
    intro i bi bv
    by_cases hx : x.natAbs > bv
    · rw [show argmaxAbsAux i bi bv (x :: rest) = argmaxAbsAux (i + 1) i x.natAbs rest by
        simp [argmaxAbsAux, hx]]
      rcases ih (i + 1) i x.natAbs with ⟨hk, hall⟩ | ⟨j, hj, hk, hgt, hmax, hfirst⟩
      · right
        refine ⟨0, by simp, by omega, by simpa using hx, ?_, by omega⟩
        intro j2 hj2
        cases j2 with
        | zero => simp
        | succ j2 => simpa using hall j2 (by simpa using hj2)
      · right
        refine ⟨j + 1, by simpa using hj, by omega, ?_, ?_, ?_⟩
        · simp only [List.getD_cons_succ]
          omega
        · intro j2 hj2
          cases j2 with
          | zero =>
            simp only [List.getD_cons_zero, List.getD_cons_succ]
            omega
          | succ j2 => simpa using hmax j2 (by simpa using hj2)
        · intro j2 hj2
          cases j2 with
          | zero =>
            simp only [List.getD_cons_zero, List.getD_cons_succ]
            omega
          | succ j2 => simpa using hfirst j2 (by omega)
    · rw [show argmaxAbsAux i bi bv (x :: rest) = argmaxAbsAux (i + 1) bi bv rest by
        simp [argmaxAbsAux, hx]]
      rcases ih (i + 1) bi bv with ⟨hk, hall⟩ | ⟨j, hj, hk, hgt, hmax, hfirst⟩
      · left
        refine ⟨hk, ?_⟩
        intro j2 hj2
        cases j2 with
        | zero => simpa using by omega
        | succ j2 => simpa using hall j2 (by simpa using hj2)
      · right
        refine ⟨j + 1, by simpa using hj, by omega, ?_, ?_, ?_⟩
        · simp only [List.getD_cons_succ]
          omega
        · intro j2 hj2
          cases j2 with
          | zero =>
            simp only [List.getD_cons_zero, List.getD_cons_succ]
            omega
          | succ j2 => simpa using hmax j2 (by simpa using hj2)
        · intro j2 hj2
          cases j2 with
          | zero =>
            simp only [List.getD_cons_zero, List.getD_cons_succ]
            omega
          | succ j2 => simpa using hfirst j2 (by omega)

theorem argmaxAbs_spec (l : List Int) (hl : l ≠ []) :
    argmaxAbs l < l.length ∧
    (∀ i < l.length, (l.getD i 0).natAbs ≤ (l.getD (argmaxAbs l) 0).natAbs) ∧
    (∀ j < argmaxAbs l, (l.getD j 0).natAbs < (l.getD (argmaxAbs l) 0).natAbs) := by
  cases l with
  | nil => exact absurd rfl hl
  | cons x rest =>
    have hrw : argmaxAbs (x :: rest) = argmaxAbsAux 1 0 x.natAbs rest := rfl
    rcases argmaxAbsAux_spec rest 1 0 x.natAbs with ⟨hk, hall⟩ | ⟨j, hj, hk, hgt, hmax, hfirst⟩
    · rw [hrw, hk]
      refine ⟨by simp, ?_, by omega⟩
      intro i hi
      cases i with
      | zero => simp
      | succ i => simpa using hall i (by simpa using hi)
    · rw [hrw, hk]
      have hget : ((x :: rest).getD (1 + j) 0) = rest.getD j 0 := by
        rw [show 1 + j = j + 1 by omega]
        simp
      refine ⟨by simp; omega, ?_, ?_⟩
      · intro i hi
        rw [hget]
        cases i with
        | zero =>
          simp only [List.getD_cons_zero]
          omega
        | succ i => simpa using hmax i (by simpa using hi)
      · intro j2 hj2
        rw [hget]
        cases j2 with
        | zero =>
          simp only [List.getD_cons_zero]
          omega
        | succ j2 => simpa using hfirst j2 (by omega)

theorem corrList_length (bits pattern : List Nat) :
    (corrList bits pattern).length = bits.length - pattern.length + 1 := by
  simp [corrList]

theorem corrList_getD (bits pattern : List Nat) (i : Nat)
    (hi : i < bits.length - pattern.length + 1) :
    (corrList bits pattern).getD i 0 = corrAt bits pattern i :=
  getD_range_map _ _ i hi 0

/-- Claim C7, amended — Sync pattern search rule: for every bit stream of
length at least 8, the synchroniser fails (`SyncLost`) exactly when no
window's normalised absolute correlation strictly exceeds the threshold;
when it returns a start position, that position attains the maximal
absolute correlation, is the first position doing so, and its normalised
correlation strictly exceeds the threshold.  (The source compares with
`>`, not `≥`.) -/
theorem C7_sync_threshold_strict (bits : List Nat) (t : ℚ) (hlen : 8 ≤ bits.length) :
    (findSyncPattern bits START_SEQ t = none ↔
      ∀ i < bits.length - 8 + 1, ((corrAt bits START_SEQ i).natAbs : ℚ) / 8 ≤ t) ∧
    (∀ k, findSyncPattern bits START_SEQ t = some k →
      k < bits.length - 8 + 1 ∧
      t < ((corrAt bits START_SEQ k).natAbs : ℚ) / 8 ∧
      (∀ i < bits.length - 8 + 1,
        (corrAt bits START_SEQ i).natAbs ≤ (corrAt bits START_SEQ k).natAbs) ∧
      ∀ j < k, (corrAt bits START_SEQ j).natAbs < (corrAt bits START_SEQ k).natAbs) := by
  have hplen : START_SEQ.length = 8 := rfl
  have h8 : ((START_SEQ.length : Nat) : ℚ) = 8 := by norm_num [START_SEQ]
  have hcsl : (corrList bits START_SEQ).length = bits.length - 8 + 1 := by
    rw [corrList_length, hplen]
  have hne : corrList bits START_SEQ ≠ [] := by
    intro h
    rw [h] at hcsl
    simp at hcsl
  obtain ⟨hklt, hmax, hfirst⟩ := argmaxAbs_spec (corrList bits START_SEQ) hne
  have hk0 : argmaxAbs (corrList bits START_SEQ) < bits.length - 8 + 1 := by
    rw [← hcsl]
    exact hklt
  have hgetk : (corrList bits START_SEQ).getD (argmaxAbs (corrList bits START_SEQ)) 0 =
      corrAt bits START_SEQ (argmaxAbs (corrList bits START_SEQ)) :=
    corrList_getD _ _ _ hk0
  unfold findSyncPattern
  rw [if_neg (by rw [hplen]; omega)]
  by_cases hthr : (((corrList bits START_SEQ).getD (argmaxAbs (corrList bits START_SEQ)) 0).natAbs : ℚ) /
      ((START_SEQ.length : Nat) : ℚ) > t
  · rw [if_pos hthr]
    rw [hgetk, h8] at hthr
    constructor
    · constructor
      · intro h
        exact absurd h (by simp)
      · intro hall
        exact absurd (lt_of_lt_of_le hthr (hall _ hk0)) (lt_irrefl t)
    · intro k hk
      obtain rfl : argmaxAbs (corrList bits START_SEQ) = k := by simpa using hk
      refine ⟨hk0, hthr, ?_, ?_⟩
      · intro i hi
        have h := hmax i (by rw [hcsl]; exact hi)
        rwa [hgetk, corrList_getD _ _ _ hi] at h
      · intro j hj
        have h := hfirst j hj
        rwa [hgetk, corrList_getD _ _ _ (by omega)] at h
  · rw [if_neg hthr]
    rw [hgetk, h8] at hthr
    push_neg at hthr
    constructor
    · refine ⟨fun _ => ?_, fun _ => rfl⟩
      intro i hi
      refine le_trans ?_ hthr
      rw [div_le_div_iff_of_pos_right (by norm_num : (0 : ℚ) < 8)]
      have h := hmax i (by rw [hcsl]; exact hi)
      rw [hgetk, corrList_getD _ _ _ hi] at h
      exact_mod_cast h
    · intro k hk
      simp at hk

/-- Counterexample to claim C7 as stated: with `sync_threshold = 3/4` and
a stream whose maximal normalised correlation magnitude is exactly `3/4`
(the START pattern with its last bit flipped), the claim's `≥` rule
declares sync, but the code's strict `>` comparison fails with
`SyncLost`. -/
theorem C7_sync_threshold_counterexample :
    ((corrAt [1, 0, 1, 0, 1, 1, 0, 1] START_SEQ
        (argmaxAbs (corrList [1, 0, 1, 0, 1, 1, 0, 1] START_SEQ))).natAbs : ℚ) / 8 = 3 / 4 ∧
    findSyncPattern [1, 0, 1, 0, 1, 1, 0, 1] START_SEQ (3 / 4) = none := by
  have hc : corrList [1, 0, 1, 0, 1, 1, 0, 1] START_SEQ = [6] := by decide
  have hargmax : argmaxAbs (corrList [1, 0, 1, 0, 1, 1, 0, 1] START_SEQ) = 0 := by
    rw [hc]
    rfl
  have hcorr : corrAt [1, 0, 1, 0, 1, 1, 0, 1] START_SEQ 0 = 6 := by decide
  constructor
  · rw [hargmax, hcorr]
    norm_num
  · unfold findSyncPattern
    rw [if_neg (by decide)]
    rw [hc]
    rw [show argmaxAbs [6] = 0 from rfl, show ([6] : List Int).getD 0 0 = 6 from rfl]
    rw [if_neg (by norm_num [START_SEQ, Int.natAbs_ofNat])]

/-- Witness for C7 (amended): on a stream equal to the START pattern the
search does not fail at the default threshold `0.7`. -/
theorem C7_sync_threshold_strict_witness :
    findSyncPattern START_SEQ START_SEQ (7 / 10) ≠ none := by
  intro hn
  have h := (C7_sync_threshold_strict START_SEQ (7 / 10) (by decide)).1.mp hn 0 (by decide)
  have hc : corrAt START_SEQ START_SEQ 0 = 8 := by decide
  rw [hc] at h
  norm_num at h

/-- Correlation of an 8-bit window against the START pattern (the value
`corrAt` computes once the window is cut out of the stream). -/
def corrW (w : List Nat) : Int := corrAt w START_SEQ 0

theorem corrAt_window (bits : List Nat) (q : Nat) (hq : q + 8 ≤ bits.length) :
    corrAt bits START_SEQ q = corrW ((bits.drop q).take 8) := by
  unfold corrAt corrW corrAt
  apply congrArg
  apply List.map_congr_left
  intro j hj
  have hj8 : j < 8 := by simpa [START_SEQ] using hj
  have hw : ((bits.drop q).take 8).getD (0 + j) 0 = bits.getD (q + j) 0 := by
    rw [List.getD_eq_getElem?_getD, List.getElem?_take, if_pos (by omega), List.getElem?_drop,
      ← List.getD_eq_getElem?_getD]
    simp
  rw [hw]

theorem corrW_cases : ∀ a b c d e f g h : Fin 2,
    (corrW [a.val, b.val, c.val, d.val, e.val, f.val, g.val, h.val]).natAbs ≤ 8 ∧
    ((corrW [a.val, b.val, c.val, d.val, e.val, f.val, g.val, h.val]).natAbs = 8 ↔
      ([a.val, b.val, c.val, d.val, e.val, f.val, g.val, h.val] = START_SEQ ∨
        [a.val, b.val, c.val, d.val, e.val, f.val, g.val, h.val] = COMPLEMENT_SEQ)) := by
  decide

/-- A window of 0/1 bits correlates with magnitude at most 8, with
equality exactly for the START pattern or its bitwise complement. -/
theorem corrW_bound (w : List Nat) (hw : w.length = 8) (hb : ∀ x ∈ w, x ≤ 1) :
    (corrW w).natAbs ≤ 8 ∧
    ((corrW w).natAbs = 8 ↔ (w = START_SEQ ∨ w = COMPLEMENT_SEQ)) := by
  rcases w with _ | ⟨b0, w⟩
  · simp at hw
  rcases w with _ | ⟨b1, w⟩
  · simp at hw
  rcases w with _ | ⟨b2, w⟩
  · simp at hw
  rcases w with _ | ⟨b3, w⟩
  · simp at hw
  rcases w with _ | ⟨b4, w⟩
  · simp at hw
  rcases w with _ | ⟨b5, w⟩
  · simp at hw
  rcases w with _ | ⟨b6, w⟩
  · simp at hw
  rcases w with _ | ⟨b7, w⟩
  · simp at hw
  rcases w with _ | ⟨b8, w⟩
  · exact corrW_cases ⟨b0, by have := hb b0 (by simp); omega⟩
      ⟨b1, by have := hb b1 (by simp); omega⟩
      ⟨b2, by have := hb b2 (by simp); omega⟩
      ⟨b3, by have := hb b3 (by simp); omega⟩
      ⟨b4, by have := hb b4 (by simp); omega⟩
      ⟨b5, by have := hb b5 (by simp); omega⟩
      ⟨b6, by have := hb b6 (by simp); omega⟩
      ⟨b7, by have := hb b7 (by simp); omega⟩
  · simp at hw

/-- Claim C10 — Sync search is polarity-insensitive: because the code
compares the absolute correlation against the threshold, a stream whose
first (and only distinguished) magnitude-8 window is the bitwise
complement of START — with the true START pattern nowhere in the stream —
makes the synchroniser report that window position as the frame start
instead of failing `SyncLost`. -/
theorem C10_sync_polarity_insensitive (bits : List Nat) (p : Nat)
    (hb : ∀ x ∈ bits, x ≤ 1)
    (hp : p + 8 ≤ bits.length)
    (hwin : (bits.drop p).take 8 = COMPLEMENT_SEQ)
    (hfirstc : ∀ q < p, (bits.drop q).take 8 ≠ COMPLEMENT_SEQ)
    (hnostart : ∀ q, q + 8 ≤ bits.length → (bits.drop q).take 8 ≠ START_SEQ) :
    findSyncPattern bits START_SEQ (7 / 10) = some p := by
  have hlen : 8 ≤ bits.length := by omega
  have hwlen : ∀ i, i + 8 ≤ bits.length → ((bits.drop i).take 8).length = 8 := by
    intro i hi
    rw [List.length_take, List.length_drop]
    omega
  have hwb : ∀ i, ∀ x ∈ (bits.drop i).take 8, x ≤ 1 :=
    fun i x hx => hb x (List.mem_of_mem_drop (List.mem_of_mem_take hx))
  have hcorrP : (corrAt bits START_SEQ p).natAbs = 8 := by
    rw [corrAt_window bits p hp, hwin]
    decide
  have hbound : ∀ i, i + 8 ≤ bits.length → (corrAt bits START_SEQ i).natAbs ≤ 8 := by
    intro i hi
    rw [corrAt_window bits i hi]
    exact (corrW_bound _ (hwlen i hi) (hwb i)).1
  have hlt : ∀ j < p, (corrAt bits START_SEQ j).natAbs < 8 := by
    intro j hj
    have hj8 : j + 8 ≤ bits.length := by omega
    have hcb := corrW_bound _ (hwlen j hj8) (hwb j)
    have hne8 : ¬(corrW ((bits.drop j).take 8)).natAbs = 8 := by
      rw [hcb.2]
      push_neg
      exact ⟨hnostart j hj8, hfirstc j hj⟩
    rw [corrAt_window bits j hj8]
    omega
  have hcsl : (corrList bits START_SEQ).length = bits.length - 8 + 1 := by
    rw [corrList_length]
    rfl
  have hne : corrList bits START_SEQ ≠ [] := by
    intro h
    rw [h] at hcsl
    simp at hcsl
  obtain ⟨hklt, hmax, hfirst⟩ := argmaxAbs_spec (corrList bits START_SEQ) hne
  have hpn : p < bits.length - 8 + 1 := by omega
  have hkn : argmaxAbs (corrList bits START_SEQ) < bits.length - 8 + 1 := by
    rw [← hcsl]
    exact hklt
  have hkn8 : argmaxAbs (corrList bits START_SEQ) + 8 ≤ bits.length := by omega
  have hk8 : (corrAt bits START_SEQ (argmaxAbs (corrList bits START_SEQ))).natAbs = 8 := by
    have hle := hmax p (by rw [hcsl]; exact hpn)
    rw [corrList_getD _ _ _ hpn, corrList_getD _ _ _ hkn, hcorrP] at hle
    have := hbound _ hkn8
    omega
  have hkp : argmaxAbs (corrList bits START_SEQ) = p := by
    rcases lt_trichotomy (argmaxAbs (corrList bits START_SEQ)) p with h | h | h
    · have := hlt _ h
      omega
    · exact h
    · have hcontra := hfirst p h
      rw [corrList_getD _ _ _ hpn, corrList_getD _ _ _ hkn, hcorrP, hk8] at hcontra
      omega
  unfold findSyncPattern
  rw [if_neg (by simp [START_SEQ]; omega)]
  rw [if_pos (by
    rw [corrList_getD _ _ _ hkn, hk8]
    norm_num [START_SEQ])]
  rw [hkp]

/-- Witness for C10: the stream consisting of exactly the complement
pattern is synced at position 0. -/
theorem C10_sync_polarity_insensitive_witness :
    findSyncPattern COMPLEMENT_SEQ START_SEQ (7 / 10) = some 0 :=
  C10_sync_polarity_insensitive COMPLEMENT_SEQ 0 (by decide) (by decide) (by decide)
    (fun q hq => absurd hq (by omega))
    (fun q hq => by
      have hq0 : q = 0 := by simpa [COMPLEMENT_SEQ] using hq
      subst hq0
      decide)

/-! ## Root-raised-cosine pulse shaping
(`simurf/transmitter.py` `_root_raised_cosine` / `pulse_shape`,
`simurf/receiver.py` `_root_raised_cosine` / `_get_matched_filter`)

Both files build the time grid `np.arange(-span/2, span/2, 1/sps)` with
`span = 6`, `β = 0.35` and pass `T = 1/symbol_rate`; with the default
rates (`sample_rate = 1e6`, `symbol_rate = 1e5`) the grid is
`-3, -2.9, …, 2.9` (60 points) and `T = 1e-5`. -/

/-- The RRC impulse response of the source, pointwise (the numpy code
fills the same three branches via index masks; `1e-10` is the tolerance
used for the special points). -/
noncomputable def rrc (beta T t : ℝ) : ℝ :=
  if |t| < 1 / 10 ^ 10 then
    (1 / T) * (1 + beta * (4 / Real.pi - 1))
  else if |(|t| - T / (4 * beta))| < 1 / 10 ^ 10 then
    (beta / (T * Real.sqrt 2)) *
      ((1 + 2 / Real.pi) * Real.sin (Real.pi / (4 * beta)) +
       (1 - 2 / Real.pi) * Real.cos (Real.pi / (4 * beta)))
  else
    (1 / T) * (Real.sin (Real.pi * t / T * (1 - beta)) +
        4 * beta * t / T * Real.cos (Real.pi * t / T * (1 + beta))) /
      (Real.pi * t / T * (1 - (4 * beta * t / T) ^ 2))

/-- The tap array at the default configuration: `rrc` sampled on
`arange(-3, 3, 1/10)` with `β = 0.35` and `T = 1/symbol_rate = 1e-5`. -/
noncomputable def rrcTaps : List ℝ :=
  (List.range 60).map fun k : ℕ => rrc (35 / 100) (1 / 100000) ((-30 + (k : ℝ)) / 10)

/-- The RRC impulse response is an even function of time. -/
theorem rrc_even (beta T t : ℝ) : rrc beta T (-t) = rrc beta T t := by
  unfold rrc
  rw [abs_neg]
  by_cases h1 : |t| < 1 / 10 ^ 10
  · rw [if_pos h1, if_pos h1]
  rw [if_neg h1, if_neg h1]
  by_cases h2 : |(|t| - T / (4 * beta))| < 1 / 10 ^ 10
  · rw [if_pos h2, if_pos h2]
  rw [if_neg h2, if_neg h2]
  have hs : Real.sin (Real.pi * -t / T * (1 - beta)) =
      -Real.sin (Real.pi * t / T * (1 - beta)) := by
    rw [show Real.pi * -t / T * (1 - beta) = -(Real.pi * t / T * (1 - beta)) by ring,
      Real.sin_neg]
  have hc : Real.cos (Real.pi * -t / T * (1 + beta)) =
      Real.cos (Real.pi * t / T * (1 + beta)) := by
    rw [show Real.pi * -t / T * (1 + beta) = -(Real.pi * t / T * (1 + beta)) by ring,
      Real.cos_neg]
  rw [hs, hc]
  have e1 : -Real.sin (Real.pi * t / T * (1 - beta)) +
      4 * beta * -t / T * Real.cos (Real.pi * t / T * (1 + beta)) =
      -(Real.sin (Real.pi * t / T * (1 - beta)) +
        4 * beta * t / T * Real.cos (Real.pi * t / T * (1 + beta))) := by ring
  have e2 : Real.pi * -t / T * (1 - (4 * beta * -t / T) ^ 2) =
      -(Real.pi * t / T * (1 - (4 * beta * t / T) ^ 2)) := by ring
  rw [e1, e2, mul_neg, neg_div_neg_eq]

/-- Value of the default tap grid at `t = -3` (the first tap).  At this
point `t/T = -300000`, the `sin` argument is `-195000 π` (zero) and the
`cos` argument is `-405000 π` (an even multiple of `π`, so one). -/
theorem rrc_at_m3 :
    rrc (35 / 100) (1 / 100000) (-3) = -(140000 / (176399999999 * Real.pi)) := by
  unfold rrc
  rw [if_neg (by rw [show |(-3 : ℝ)| = 3 by rw [abs_of_neg (by norm_num)]; norm_num]; norm_num)]
  rw [if_neg (by
    rw [show |(-3 : ℝ)| = 3 by rw [abs_of_neg (by norm_num)]; norm_num]
    rw [abs_of_pos (by norm_num)]
    norm_num)]
  have hsin : Real.sin (Real.pi * (-3) / (1 / 100000) * (1 - 35 / 100)) = 0 := by
    rw [show Real.pi * (-3) / (1 / 100000) * (1 - 35 / 100) =
        ((-195000 : ℤ) : ℝ) * Real.pi by push_cast; ring]
    exact Real.sin_int_mul_pi (-195000)
  have hcos : Real.cos (Real.pi * (-3) / (1 / 100000) * (1 + 35 / 100)) = 1 := by
    rw [show Real.pi * (-3) / (1 / 100000) * (1 + 35 / 100) =
        ((-202500 : ℤ) : ℝ) * (2 * Real.pi) by push_cast; ring]
    exact Real.cos_int_mul_two_pi (-202500)
  rw [hsin, hcos]
  have hpi := Real.pi_ne_zero
  field_simp
  ring

/-- Value of the default tap grid at `t = 2.9` (the last tap).  Here
`t/T = 290000`, the `sin` argument is `188500 π` and the `cos` argument
is `391500 π = 195750 · 2π`. -/
theorem rrc_at_29 :
    rrc (35 / 100) (1 / 100000) (29 / 10) = -(140000 / (164835999999 * Real.pi)) := by
  unfold rrc
  rw [if_neg (by rw [abs_of_pos (by norm_num)]; norm_num)]
  rw [if_neg (by
    rw [abs_of_pos (by norm_num : (0 : ℝ) < 29 / 10)]
    rw [abs_of_pos (by norm_num)]
    norm_num)]
  have hsin : Real.sin (Real.pi * (29 / 10) / (1 / 100000) * (1 - 35 / 100)) = 0 := by
    rw [show Real.pi * (29 / 10) / (1 / 100000) * (1 - 35 / 100) =
        ((188500 : ℤ) : ℝ) * Real.pi by push_cast; ring]
    exact Real.sin_int_mul_pi 188500
  have hcos : Real.cos (Real.pi * (29 / 10) / (1 / 100000) * (1 + 35 / 100)) = 1 := by
    rw [show Real.pi * (29 / 10) / (1 / 100000) * (1 + 35 / 100) =
        ((195750 : ℤ) : ℝ) * (2 * Real.pi) by push_cast; ring]
    exact Real.cos_int_mul_two_pi 195750
  rw [hsin, hcos]
  have hpi := Real.pi_ne_zero
  field_simp
  ring

/-- Counterexample to claim C8 as stated: the tap array is not equal to
its own reversal, because the grid `arange(-3, 3, 0.1)` contains `-3.0`
but not `+3.0`; the first tap `h(-3)` and the last tap `h(2.9)` are
provably different real numbers. -/
theorem C8_rrc_taps_counterexample : rrcTaps ≠ rrcTaps.reverse := by
  intro h
  have hlen : rrcTaps.length = 60 := by simp [rrcTaps]
  have h0 : rrcTaps.getD 0 0 = rrcTaps.getD 59 0 := by
    conv_lhs => rw [h]
    rw [List.getD_eq_getElem?_getD, List.getD_eq_getElem?_getD,
      List.getElem?_reverse (by omega)]
    rw [hlen]
  have e0 : rrcTaps.getD 0 0 = rrc (35 / 100) (1 / 100000) (-3) := by
    rw [rrcTaps, getD_range_map _ _ 0 (by norm_num)]
    norm_num
  have e59 : rrcTaps.getD 59 0 = rrc (35 / 100) (1 / 100000) (29 / 10) := by
    rw [rrcTaps, getD_range_map _ _ 59 (by norm_num)]
    norm_num
  rw [e0, e59, rrc_at_m3, rrc_at_29] at h0
  have hpi := Real.pi_ne_zero
  rw [neg_inj, div_eq_div_iff (by positivity) (by positivity)] at h0
  have := Real.pi_ne_zero
  nlinarith [Real.pi_pos]

/-- Claim C8, amended — RRC tap symmetry: the underlying impulse response
is even, `h(-t) = h(t)` for every `t`; but the generated time grid
`arange(-span/2, span/2, 1/sps)` contains `-span/2` and not `+span/2`, so
the full tap array is *not* equal to its own reversal; the array with its
first tap dropped is symmetric. -/
theorem C8_rrc_symmetry :
    (∀ t : ℝ, rrc (35 / 100) (1 / 100000) (-t) = rrc (35 / 100) (1 / 100000) t) ∧
    rrcTaps.tail.reverse = rrcTaps.tail := by
  constructor
  · exact fun t => rrc_even _ _ t
  · have hmap : rrcTaps.tail =
        ((List.range 60).tail).map fun k : ℕ =>
          rrc (35 / 100) (1 / 100000) ((-30 + (k : ℝ)) / 10) := by
      rw [rrcTaps, ← List.map_tail]
    have hrev : ((List.range 60).tail).reverse = ((List.range 60).tail).map (fun j => 60 - j) := by
      decide
    rw [hmap, ← List.map_reverse, hrev, List.map_map]
    apply List.map_congr_left
    intro j hj
    have hj60 : j < 60 := List.mem_range.mp (List.mem_of_mem_tail hj)
    simp only [Function.comp_apply]
    have hcast : ((60 - j : ℕ) : ℝ) = 60 - (j : ℝ) := by
      rw [Nat.cast_sub (by omega)]
      norm_num
    rw [hcast, show (-30 + ((60 : ℝ) - (j : ℝ))) / 10 = -((-30 + (j : ℝ)) / 10) by ring,
      rrc_even]

/-! ## Channel model (`simurf/channel.py`)

`ChannelModel.__init__(channel_type, snr_db, doppler_freq, delay_spread)`
takes no PRNG seed; every random draw comes from the process-global
`np.random`.  The global generator is modelled as an explicit stream
`u : ℕ → ℝ` of draws (standard-normal draws are scaled by the requested
standard deviation; `np.random.uniform(0, 2π)` draws are the stream
values themselves), consumed left to right, so that `apply_channel`
becomes a pure function of the channel parameters, the stream and the
input signal. -/

inductive ChannelType where
  | awgn
  | rayleigh
  | rician
  deriving Repr, DecidableEq

/-- The fields of `ChannelModel` (the unused `fading_state`/`prev_time`
slots are omitted; they are written but never read by the source). -/
structure ChannelModel where
  channel_type : ChannelType
  snr_db : ℝ
  doppler_freq : ℝ
  delay_spread : ℝ
  snr_linear : ℝ
  signals_processed : ℕ
  total_noise_power : ℝ

/-- The constructor `ChannelModel.__init__`: its parameters are exactly
`(channel_type, snr_db, doppler_freq, delay_spread)` — there is no seed
argument — and it derives `snr_linear = 10^(snr_db/10)` and zeroes the
statistics. -/
noncomputable def ChannelModel.init (ct : ChannelType)
    (snr_db doppler_freq delay_spread : ℝ) : ChannelModel :=
  ⟨ct, snr_db, doppler_freq, delay_spread, (10 : ℝ) ^ (snr_db / 10), 0, 0⟩

/-- Complex samples as I/Q pairs of reals. -/
abbrev Cx : Type := ℝ × ℝ

def cxMul (a b : Cx) : Cx := (a.1 * b.1 - a.2 * b.2, a.1 * b.2 + a.2 * b.1)

def cxAdd (a b : Cx) : Cx := (a.1 + b.1, a.2 + b.2)

def cxScale (r : ℝ) (a : Cx) : Cx := (r * a.1, r * a.2)

def cxAbsSq (z : Cx) : ℝ := z.1 ^ 2 + z.2 ^ 2

def cxSum (l : List Cx) : Cx := ((l.map Prod.fst).sum, (l.map Prod.snd).sum)

/-- Mean signal power `np.mean(np.abs(signal)**2)`. -/
noncomputable def signalPower (sig : List Cx) : ℝ :=
  (sig.map cxAbsSq).sum / sig.length

/-- Standard deviation `sqrt(noise_power/2)` used for each of the I and Q
noise draws in `_add_awgn_noise`. -/
noncomputable def awgnSigma (snr_linear : ℝ) (sig : List Cx) : ℝ :=
  Real.sqrt (signalPower sig / snr_linear / 2)

/-- AWGN addition, mirroring `_add_awgn_noise`: the real parts consume the
draws `u cur, …, u (cur+n−1)`, the imaginary parts the next `n` draws. -/
noncomputable def addAwgnNoise (snr_linear : ℝ) (u : ℕ → ℝ) (cur : ℕ)
    (sig : List Cx) : List Cx :=
  (List.range sig.length).map fun i =>
    ((sig.getD i (0, 0)).1 + awgnSigma snr_linear sig * u (cur + i),
     (sig.getD i (0, 0)).2 + awgnSigma snr_linear sig * u (cur + sig.length + i))

/-- Energy of the generated noise (`np.sum(np.abs(noise)**2)`, which is
accumulated into `total_noise_power`). -/
noncomputable def awgnNoiseEnergy (snr_linear : ℝ) (u : ℕ → ℝ) (cur : ℕ)
    (sig : List Cx) : ℝ :=
  ((List.range sig.length).map fun i =>
    (awgnSigma snr_linear sig * u (cur + i)) ^ 2 +
      (awgnSigma snr_linear sig * u (cur + sig.length + i)) ^ 2).sum

/-- Jakes sum-of-sinusoids fading coefficient for sample `k`
(`_generate_rayleigh_fading` with `N = 16`; the `n`-th sinusoid has
frequency `doppler·cos(2πn/16)` and phase `u (cur+n)`). -/
noncomputable def jakesCoeff (doppler : ℝ) (u : ℕ → ℝ) (cur : ℕ)
    (sampleRate : ℝ) (k : ℕ) : Cx :=
  (((List.range 16).map fun m : ℕ =>
      Real.cos (2 * Real.pi * (doppler * Real.cos (2 * Real.pi * (m : ℝ) / 16)) *
        ((k : ℝ) / sampleRate) + u (cur + m))).sum / Real.sqrt 16,
   ((List.range 16).map fun m : ℕ =>
      Real.sin (2 * Real.pi * (doppler * Real.cos (2 * Real.pi * (m : ℝ) / 16)) *
        ((k : ℝ) / sampleRate) + u (cur + m))).sum / Real.sqrt 16)

/-- Rayleigh fading application (`signal * fading_coeff`). -/
noncomputable def applyRayleigh (doppler : ℝ) (u : ℕ → ℝ) (cur : ℕ)
    (sampleRate : ℝ) (sig : List Cx) : List Cx :=
  (List.range sig.length).map fun k =>
    cxMul (sig.getD k (0, 0)) (jakesCoeff doppler u cur sampleRate k)

/-- Rician fading with the hard-coded `k_factor = 10`
(`_generate_rician_fading`): LOS term `√(10/11)` plus `√(1/11)` times the
Rayleigh coefficient. -/
noncomputable def applyRician (doppler : ℝ) (u : ℕ → ℝ) (cur : ℕ)
    (sampleRate : ℝ) (sig : List Cx) : List Cx :=
  (List.range sig.length).map fun k =>
    cxMul (sig.getD k (0, 0))
      (cxAdd (Real.sqrt (10 / 11), 0)
        (cxScale (Real.sqrt (1 / 11)) (jakesCoeff doppler u cur sampleRate k)))

/-- `int(delay_spread * sample_rate * 5)` of `_apply_multipath`. -/
noncomputable def maxDelaySamples (delay sampleRate : ℝ) : ℕ :=
  (Int.floor (delay * sampleRate * 5)).toNat

/-- Multipath channel taps: exponential power-delay profile normalised to
unit sum, times complex Gaussian draws divided by `√2`. -/
noncomputable def multipathTaps (delay sampleRate : ℝ) (u : ℕ → ℝ) (cur : ℕ) : List Cx :=
  (List.range (maxDelaySamples delay sampleRate)).map fun k : ℕ =>
    (Real.sqrt (Real.exp (-(k : ℝ) / (delay * sampleRate)) /
        (((List.range (maxDelaySamples delay sampleRate)).map fun j : ℕ =>
          Real.exp (-(j : ℝ) / (delay * sampleRate))).sum)) *
      u (cur + k) / Real.sqrt 2,
     Real.sqrt (Real.exp (-(k : ℝ) / (delay * sampleRate)) /
        (((List.range (maxDelaySamples delay sampleRate)).map fun j : ℕ =>
          Real.exp (-(j : ℝ) / (delay * sampleRate))).sum)) *
      u (cur + maxDelaySamples delay sampleRate + k) / Real.sqrt 2)

/-- Full discrete convolution (zero-extended). -/
noncomputable def convFull (a h : List Cx) : List Cx :=
  (List.range (a.length + h.length - 1)).map fun n =>
    cxSum ((List.range h.length).map fun k =>
      if k ≤ n ∧ n - k < a.length then cxMul (h.getD k (0, 0)) (a.getD (n - k) (0, 0))
      else (0, 0))

/-- `np.convolve(_, _, mode="same")`: the centred slice of the full
convolution, of length `max` of the two lengths. -/
noncomputable def convSame (a h : List Cx) : List Cx :=
  ((convFull a h).drop ((min a.length h.length - 1) / 2)).take (max a.length h.length)

/-- `apply_channel`: optional fading (16 uniform draws), optional
multipath (`2·maxDelay` normal draws) when `delay_spread > 0`, then AWGN
(`2·len` normal draws); the statistics fields are updated and do not feed
back into the output. -/
noncomputable def apply_channel (c : ChannelModel) (u : ℕ → ℝ) (sampleRate : ℝ)
    (sig : List Cx) : List Cx × ChannelModel :=
  let sig1 :=
    if c.channel_type = ChannelType.rayleigh then
      applyRayleigh c.doppler_freq u 0 sampleRate sig
    else if c.channel_type = ChannelType.rician then
      applyRician c.doppler_freq u 0 sampleRate sig
    else sig
  let cur1 : ℕ :=
    if c.channel_type = ChannelType.rayleigh ∨ c.channel_type = ChannelType.rician then 16
    else 0
  let sig2 :=
    if c.delay_spread > 0 then convSame sig1 (multipathTaps c.delay_spread sampleRate u cur1)
    else sig1
  let cur2 : ℕ :=
    cur1 + (if c.delay_spread > 0 then 2 * maxDelaySamples c.delay_spread sampleRate else 0)
  (addAwgnNoise c.snr_linear u cur2 sig2,
   { c with
      signals_processed := c.signals_processed + 1,
      total_noise_power := c.total_noise_power + awgnNoiseEnergy c.snr_linear u cur2 sig2 })

/-- Claim C9, amended — Channel determinism relative to the global PRNG:
the constructor takes no seed, so determinism holds only once the global
PRNG state is fixed.  Any two channels whose constructor-derived
parameters agree — regardless of their accumulated statistics — map the
same stream, sample rate and input signal to the same output signal. -/
theorem C9_channel_determinism (c1 c2 : ChannelModel)
    (hct : c1.channel_type = c2.channel_type)
    (hlin : c1.snr_linear = c2.snr_linear)
    (hdop : c1.doppler_freq = c2.doppler_freq)
    (hdel : c1.delay_spread = c2.delay_spread)
    (u : ℕ → ℝ) (sampleRate : ℝ) (sig : List Cx) :
    (apply_channel c1 u sampleRate sig).1 = (apply_channel c2 u sampleRate sig).1 := by
  cases c1
  cases c2
  dsimp only at hct hlin hdop hdel
  subst hct
  subst hlin
  subst hdop
  subst hdel
  rfl

/-- Witness for C9 (amended): two concrete channels with the same
constructor parameters but different statistics produce the same output. -/
theorem C9_channel_determinism_witness :
    (apply_channel (ChannelModel.init ChannelType.awgn 0 0 0) (fun _ => 0) 1000000 [(1, 0)]).1 =
    (apply_channel ⟨ChannelType.awgn, 0, 0, 0, (10 : ℝ) ^ ((0 : ℝ) / 10), 5, 3⟩
      (fun _ => 0) 1000000 [(1, 0)]).1 :=
  C9_channel_determinism _ _ rfl rfl rfl rfl (fun _ => 0) 1000000 [(1, 0)]

theorem channel_awgn_reduce (u : ℕ → ℝ) :
    (apply_channel (ChannelModel.init ChannelType.awgn 0 0 0) u 1000000 [(1, 0)]).1 =
    addAwgnNoise ((10 : ℝ) ^ ((0 : ℝ) / 10)) u 0 [(1, 0)] := by
  unfold apply_channel ChannelModel.init
  dsimp only
  have hd : ¬ ((0 : ℝ) > 0) := by norm_num
  have hray : ¬ (ChannelType.awgn = ChannelType.rayleigh) := by simp
  have hric : ¬ (ChannelType.awgn = ChannelType.rician) := by simp
  rw [if_neg hd, if_neg hd, if_neg hray, if_neg hric]
  rw [if_neg (show ¬(ChannelType.awgn = ChannelType.rayleigh ∨
    ChannelType.awgn = ChannelType.rician) by simp)]

theorem awgn_sigma_unit : awgnSigma ((10 : ℝ) ^ ((0 : ℝ) / 10)) [(1, 0)] = Real.sqrt (1 / 2) := by
  unfold awgnSigma signalPower cxAbsSq
  rw [show ((0 : ℝ) / 10) = 0 by norm_num, Real.rpow_zero]
  norm_num

theorem addAwgn_single (u : ℕ → ℝ) :
    addAwgnNoise ((10 : ℝ) ^ ((0 : ℝ) / 10)) u 0 [(1, 0)] =
    [(1 + Real.sqrt (1 / 2) * u 0, Real.sqrt (1 / 2) * u 1)] := by
  unfold addAwgnNoise
  rw [show ([(1, 0)] : List Cx).length = 1 from rfl,
    show List.range 1 = [0] from rfl, List.map_cons, List.map_nil]
  rw [awgn_sigma_unit]
  norm_num

/-- Counterexample to claim C9 as stated: the channel constructor has no
seed parameter; with identical constructor parameters and identical
inputs, two different global-PRNG states produce different outputs, so
constructor arguments alone never make two runs deterministic. -/
theorem C9_channel_seedless_counterexample :
    (apply_channel (ChannelModel.init ChannelType.awgn 0 0 0) (fun _ => 0) 1000000 [(1, 0)]).1 ≠
    (apply_channel (ChannelModel.init ChannelType.awgn 0 0 0) (fun _ => 1) 1000000 [(1, 0)]).1 := by
  intro h
  rw [channel_awgn_reduce, channel_awgn_reduce, addAwgn_single, addAwgn_single] at h
  simp only [mul_zero, mul_one, add_zero, List.cons.injEq, Prod.mk.injEq, and_true] at h
  have hpos : 0 < Real.sqrt (1 / 2) := Real.sqrt_pos.mpr (by norm_num)
  have h1 := h.1
  linarith

end Simurf
